import Mathlib

/-!
Shallow embedding of the Memos Daily Review plugin's deck-generation engine
(`memos-daily-review-plugin.js`), covering: memo normalization, the review
history, the bucket sampler (`buildBuckets`, `allocateTargets`,
`sortByReviewPriority`, `pickFromBucket`, `interleave`), the spark-pair
finder (`findSparkPair`), the deck assembler (`buildDeckFromPool`), the
pool-acquisition fetch (`getPoolMemos`), the deck cache (`saveDeck`,
`getDeck`, `loadDeck`), and the quota behaviour of the storage writes.

Modelling conventions:
* Calendar days are modelled as integer day indices (`Int`); the plugin's
  day strings `YYYY-MM-DD` are in order-preserving bijection with them, and
  `diffDays` on strings is exact integer day subtraction.
* Millisecond timestamps are `Nat`.  A missing/falsy `createTime` is
  `Option.none` and converts to `0`, as `new Date(falsy)`-guarded code does.
* JavaScript's `Array.prototype.sort` is required to be stable
  (ECMAScript 2019); for the consistent comparators used by the plugin a
  stable sort is unique, so it is modelled by `List.insertionSort`, which
  is stable for total preorders.
* JS 32-bit integer coercion (`x & x`, `<< 5`) is modelled explicitly with
  `toInt32`.
-/

namespace DailyReview

/-- JS `ToInt32` coercion: wrap an integer into `[-2^31, 2^31)`. -/
def toInt32 (x : Int) : Int :=
  let r := x % 4294967296
  if r < 2147483648 then r else r - 4294967296

/-- `utils.stringToSeed`: the `hash = ((hash << 5) - hash) + char; hash &= hash`
loop followed by `Math.abs`.  `hash << 5` coerces to int32 before the
subtraction/addition (exact in JS doubles at these magnitudes), and
`hash & hash` coerces the sum back to int32. -/
def stringToSeed (s : String) : Nat :=
  (s.data.foldl (fun h c => toInt32 (toInt32 (h * 32) - h + (c.toNat : Int))) 0).natAbs

/-- An attachment reference as kept by `normalizeMemo` (the four copied
fields; their values are irrelevant to the verified properties). -/
structure AttachmentRef where
  name : Option String
  filename : Option String
  mimeType : Option String
  externalLink : Option String
deriving DecidableEq, Repr

/-- The normalized internal memo entity produced by `utils.normalizeMemo`. -/
structure Memo where
  id : String
  name : Option String
  uid : Option String
  createTime : Option Nat
  content : String
  tags : List String
  attachments : List AttachmentRef
deriving DecidableEq, Repr

/-- A raw memo record as returned by the host API.  `attachments` is `none`
when the field is absent or not an array; array entries that are not
objects are modelled as `none` entries. -/
structure RawMemo where
  name : Option String
  id : Option String
  uid : Option String
  createTime : Option Nat
  content : Option String
  attachments : Option (List (Option AttachmentRef))
deriving DecidableEq, Repr

/-- JS `a || b` on an optional string (`undefined`/`null` and `""` are falsy). -/
def jsOrS (a : Option String) (b : String) : String :=
  match a with
  | some s => if s = "" then b else s
  | none => b

/-- `utils.getMemoId`: `memo?.name || memo?.id || memo?.uid || ''`. -/
def getMemoId (m : RawMemo) : String :=
  jsOrS m.name (jsOrS m.id (jsOrS m.uid ""))

/-- Character class `[^\s#]` used by the tag regex. -/
def isTagChar (c : Char) : Bool :=
  !(c = '#' || c.isWhitespace)

/-- One pass of the global regex `/#([^\s#]+)/g` as an incremental scan:
`acc` is `some` (reversed) run of tag characters while a `#`-opened run is
being collected.  Collects every maximal non-empty run of tag characters
that follows a `#`. -/
def extractTagsAux : List Char → Option (List Char) → List String
  | [], none => []
  | [], some acc => if acc.isEmpty then [] else [String.mk acc.reverse]
  | c :: rest, none =>
    if c = '#' then extractTagsAux rest (some []) else extractTagsAux rest none
  | c :: rest, some acc =>
    if isTagChar c then extractTagsAux rest (some (c :: acc))
    else
      let finished := if acc.isEmpty then [] else [String.mk acc.reverse]
      if c = '#' then finished ++ extractTagsAux rest (some [])
      else finished ++ extractTagsAux rest none

/-- `utils.extractTags`: regex scan collected into a `Set` (insertion order,
first occurrence wins) and converted back to an array. -/
def extractTags (content : String) : List String :=
  (extractTagsAux content.data none).eraseDups

/-- `String.prototype.trim`: strip leading and trailing whitespace. -/
def jsTrim (s : String) : String :=
  String.mk (((s.data.dropWhile Char.isWhitespace).reverse.dropWhile Char.isWhitespace).reverse)

/-- `utils.normalizeMemo`. -/
def normalizeMemo (m : RawMemo) : Memo :=
  let content := m.content.getD ""
  { id := getMemoId m
    name := m.name
    uid := m.uid
    createTime := m.createTime
    content := content
    tags := extractTags content
    attachments :=
      match m.attachments with
      | some l => l.filterMap id
      | none => [] }

/-- One review-history entry (`{ lastShownDay, shownCount }`); a falsy
`lastShownDay` is `none`. -/
structure HistoryEntry where
  lastShownDay : Option Int
  shownCount : Nat
deriving DecidableEq, Repr

/-- The review-history store: `items` keyed by memo id (association list in
object-key insertion order). -/
structure History where
  items : List (String × HistoryEntry)
deriving DecidableEq, Repr

/-- `historyService.getEntry`: object-key lookup. -/
def History.getEntry (h : History) (memoId : String) : Option HistoryEntry :=
  (h.items.find? (fun p => p.1 = memoId)).map (fun p => p.2)

/-- `historyService.getDaysSinceShown`; `none` models the JS result
`Number.POSITIVE_INFINITY` (no entry or falsy `lastShownDay`). -/
def getDaysSinceShown (h : History) (memoId : String) (today : Int) : Option Int :=
  match h.getEntry memoId with
  | none => none
  | some e =>
    match e.lastShownDay with
    | none => none
    | some d => some (today - d)

/-- `daysSince >= minDays` with `daysSince` possibly `+∞`. -/
def dsGE (ds : Option Int) (minDays : Int) : Bool :=
  match ds with
  | none => true
  | some v => minDays ≤ v

/-- Stable sort, modelling `Array.prototype.sort` with a consistent
comparator (`le a b` means `comparator a b <= 0`). -/
def jsSort (le : α → α → Bool) (l : List α) : List α :=
  l.insertionSort (fun a b => le a b = true)

/-- `a.createTime ? new Date(a.createTime).getTime() : 0`. -/
def ctMs (m : Memo) : Nat :=
  m.createTime.getD 0

/-- Comparator `ta - tb <= 0` of the creation-time sorts. -/
def createTimeLE (a b : Memo) : Bool :=
  ctMs a ≤ ctMs b

/-- `controller.buildBuckets`: sort a copy of the pool ascending by creation
time and slice into `[0, third)`, `[third, 2*third)`, `[2*third, ..)` with
`third = ceil(n / 3)`. -/
def buildBuckets (pool : List Memo) : List Memo × List Memo × List Memo :=
  let sorted := jsSort createTimeLE pool
  if sorted.length = 0 then ([], [], [])
  else
    let third := (sorted.length + 2) / 3
    (sorted.take third, (sorted.drop third).take third, sorted.drop (2 * third))

/-- `controller.allocateTargets`: `floor(count/3)` each plus the remainder
distributed to the earliest buckets. -/
def allocateTargets (count : Nat) : Nat × Nat × Nat :=
  let base := count / 3
  let rem := count % 3
  (base + (if 1 ≤ rem then 1 else 0), base + (if 2 ≤ rem then 1 else 0), base)

/-- A scored candidate as built inside `sortByReviewPriority`. -/
structure Scored where
  m : Memo
  never : Bool
  daysSince : Option Int
  shownCount : Nat
  tie : Nat
deriving DecidableEq, Repr

/-- The score record of one candidate. -/
def scoreMemo (history : History) (today : Int) (seedPrefix : String) (m : Memo) : Scored :=
  let entry := history.getEntry m.id
  { m := m
    never :=
      match entry with
      | none => true
      | some e => e.lastShownDay.isNone
    daysSince := getDaysSinceShown history m.id today
    shownCount :=
      match entry with
      | none => 0
      | some e => e.shownCount
    tie := stringToSeed (seedPrefix ++ "-" ++ m.id) }

/-- The JS comparator of `sortByReviewPriority` (sign only): never-shown
first, then larger `daysSince`, then smaller `shownCount`, then smaller
tie hash.  `none` for `daysSince` is `+∞`. -/
def cmpScored (a b : Scored) : Int :=
  if a.never ≠ b.never then (if a.never then -1 else 1)
  else if a.daysSince ≠ b.daysSince then
    match b.daysSince, a.daysSince with
    | some x, some y => x - y
    | some _, none => -1
    | none, some _ => 1
    | none, none => 0
  else if a.shownCount ≠ b.shownCount then (a.shownCount : Int) - (b.shownCount : Int)
  else (a.tie : Int) - (b.tie : Int)

/-- `comparator a b <= 0` for the priority sort. -/
def scoredLE (a b : Scored) : Bool :=
  cmpScored a b ≤ 0

/-- `controller.sortByReviewPriority`: keep candidates with a truthy id whose
`daysSinceShown` meets `minDaysSince`, score them, stable-sort by the
priority comparator, and return the memos. -/
def sortByReviewPriority (candidates : List Memo) (history : History) (today : Int)
    (seedPrefix : String) (minDaysSince : Int) : List Memo :=
  let scored :=
    (candidates.filter (fun m => m.id ≠ "")
      |>.filter (fun m => dsGE (getDaysSinceShown history m.id today) minDaysSince)
      |>.map (scoreMemo history today seedPrefix))
  (jsSort scoredLE scored).map (fun s => s.m)

/-- One iteration of the inner pick loop: skip when the quota is reached or
the id was already picked, otherwise append. -/
def pickOne (target : Nat) (picked : List Memo) (memo : Memo) : List Memo :=
  if target ≤ picked.length then picked
  else if memo.id ∈ picked.map (fun m => m.id) then picked
  else picked ++ [memo]

/-- One relaxation rung: walk the ranked list accumulating picks. -/
def pickPass (target : Nat) (picked : List Memo) (ordered : List Memo) : List Memo :=
  ordered.foldl (pickOne target) picked

/-- `controller.pickFromBucket`: relaxation ladder `[3, 2, 1, 0]` over the
ranked bucket, deduplicating by id, capped at `target`. -/
def pickFromBucket (bucket : List Memo) (target : Nat) (history : History) (today : Int)
    (seedPrefix : String) : List Memo :=
  if target = 0 then []
  else
    (([(3 : Int), 2, 1, 0].foldl
      (fun picked minDays =>
        pickPass target picked (sortByReviewPriority bucket history today seedPrefix minDays))
      [])).take target

/-- `controller.interleave` specialised to the three bucket selections:
round-robin take-one-from-each, skipping exhausted buckets. -/
def interleaveFuel : Nat → List Memo → List Memo → List Memo → List Memo
  | 0, _, _, _ => []
  | Nat.succ n, a, b, c =>
    if a.length + b.length + c.length = 0 then []
    else (a.take 1 ++ b.take 1 ++ c.take 1) ++ interleaveFuel n a.tail b.tail c.tail

/-- `controller.interleave` on the three bucket selections, with the fuel
instantiated so the `while` loop runs to completion (each iteration drops
one element from every non-empty bucket, so the total length bounds the
iteration count). -/
def interleave (a b c : List Memo) : List Memo :=
  interleaveFuel (a.length + b.length + c.length) a b c

/-- Append a memo to a tag's group in the `Map` (object insertion order:
a new tag goes to the end, an existing tag keeps its position). -/
def tagMapInsert : List (String × List Memo) → String → Memo → List (String × List Memo)
  | [], tag, memo => [(tag, [memo])]
  | (t, ms) :: rest, tag, memo =>
    if t = tag then (t, ms ++ [memo]) :: rest
    else (t, ms) :: tagMapInsert rest tag memo

/-- The grouping loop of `findSparkPair`: skip memos without an id or with
`daysSinceShown < NO_REPEAT_DAYS (= 3)`, then add the memo to the group of
each of its non-empty tags. -/
def buildTagMap (pool : List Memo) (history : History) (today : Int) :
    List (String × List Memo) :=
  pool.foldl
    (fun acc memo =>
      if memo.id = "" then acc
      else if !dsGE (getDaysSinceShown history memo.id today) 3 then acc
      else memo.tags.foldl
        (fun acc2 tag => if tag = "" then acc2 else tagMapInsert acc2 tag memo) acc)
    []

/-- A spark-pair candidate (`{ tag, oldest, newest, tie }`). -/
structure SparkCand where
  tag : String
  oldest : Memo
  newest : Memo
  tie : Nat
deriving DecidableEq, Repr

/-- One iteration of the candidate extraction of `findSparkPair`: skip tag
groups with fewer than two members, sort a copy by creation time, and keep
(head, last) unless they carry the same id. -/
def sparkStep (seedPrefix : String) (acc : List SparkCand) (p : String × List Memo) :
    List SparkCand :=
  if p.2.length < 2 then acc
  else
    let sorted := jsSort createTimeLE p.2
    match sorted.head?, sorted.getLast? with
    | some oldest, some newest =>
      if oldest.id = newest.id then acc
      else acc ++ [{ tag := p.1, oldest := oldest, newest := newest,
                     tie := stringToSeed (seedPrefix ++ "-tag-" ++ p.1) }]
    | _, _ => acc

/-- Candidate extraction of `findSparkPair` over the whole tag map. -/
def sparkCandidates (tagMap : List (String × List Memo)) (seedPrefix : String) :
    List SparkCand :=
  tagMap.foldl (sparkStep seedPrefix) []

/-- `comparator a b <= 0` for the candidate tie sort (`a.tie - b.tie`). -/
def candLE (a b : SparkCand) : Bool :=
  a.tie ≤ b.tie

/-- `controller.findSparkPair`. -/
def findSparkPair (pool : List Memo) (history : History) (today : Int)
    (seedPrefix : String) : Option (Memo × Memo) :=
  let candidates := sparkCandidates (buildTagMap pool history today) seedPrefix
  if candidates.isEmpty then none
  else
    match (jsSort candLE candidates).head? with
    | some c => some (c.oldest, c.newest)
    | none => none

/-- The persisted review settings that the assembler reads. -/
structure Settings where
  timeRange : String
  count : Nat
deriving DecidableEq, Repr

/-- Eligibility filter of `buildDeckFromPool`: truthy id and (non-blank
content or at least one attachment). -/
def isEligible (m : Memo) : Bool :=
  m.id ≠ "" && (jsTrim m.content ≠ "" || m.attachments.length > 0)

/-- `deck.splice(min(pos, deck.length), 0, memo)` guarded by the
duplicate-id check of the `insert` closure. -/
def insertSpark (deck : List Memo) (pos : Nat) (memo : Memo) : List Memo :=
  if deck.any (fun m => m.id = memo.id) then deck
  else
    let p := min pos deck.length
    deck.take p ++ memo :: deck.drop p

/-- The id-dedup filter run after the spark insertion (first occurrence
wins; memos with a falsy id are dropped). -/
def dedupById (l : List Memo) : List Memo :=
  (l.foldl
    (fun (acc : List Memo × List String) m =>
      if m.id = "" then acc
      else if m.id ∈ acc.2 then acc
      else (acc.1 ++ [m], m.id :: acc.2))
    ([], [])).1

/-- The seed prefix of one generation run: the day string, time range,
count and batch joined by dashes (the day is rendered from its index). -/
def seedPrefixOf (today : Int) (settings : Settings) (batch : Nat) : String :=
  toString today ++ "-" ++ settings.timeRange ++ "-" ++ toString settings.count
    ++ "-" ++ toString batch

/-- `controller.buildDeckFromPool`.  The history store it loads is passed
explicitly. -/
def buildDeckFromPool (pool : List Memo) (settings : Settings) (history : History)
    (today : Int) (batch : Nat) : List Memo :=
  let eligible := pool.filter isEligible
  if eligible.length = 0 then []
  else
    let seedPrefix := seedPrefixOf today settings batch
    let buckets := buildBuckets eligible
    let targets := allocateTargets settings.count
    let selectedOldest :=
      pickFromBucket buckets.1 targets.1 history today (seedPrefix ++ "-oldest")
    let selectedMiddle :=
      pickFromBucket buckets.2.1 targets.2.1 history today (seedPrefix ++ "-middle")
    let selectedNewest :=
      pickFromBucket buckets.2.2 targets.2.2 history today (seedPrefix ++ "-newest")
    let deck := interleave selectedOldest selectedMiddle selectedNewest
    match findSparkPair eligible history today seedPrefix with
    | none => deck.take settings.count
    | some (a, b) =>
      let positions : Nat × Nat :=
        if 8 ≤ deck.length then (2, 5) else (1, max 2 (deck.length - 1))
      let deck1 := insertSpark deck positions.1 a
      let deck2 := insertSpark deck1 positions.2 b
      (dedupById deck2).take settings.count

/-- One page returned by `apiService.fetchMemos`. -/
structure Page where
  memos : List RawMemo
  nextPageToken : String

/-- The normalize/dedup step of the pool fetch loop (`seen` id set kept
alongside the accumulated list). -/
def poolNormalizeStep (st : List Memo × List String) (raw : RawMemo) : List Memo × List String :=
  let m := normalizeMemo raw
  if m.id = "" then st
  else if m.id ∈ st.2 then st
  else (st.1 ++ [m], m.id :: st.2)

/-- The network path of `controller.getPoolMemos`: fetch the first page; for
`timeRange === 'all'`, when a `nextPageToken` came back (and the constant
`POOL_MAX_PAGES_ALL = 2` exceeds 1), fetch exactly one extra page.  The
memo source is a function from the optional page token to a page; the
result carries the number of page fetches issued. -/
def getPoolMemosFetch (source : Option String → Page) (timeRange : String) :
    List Memo × Nat :=
  let first := source none
  let st1 := first.memos.foldl poolNormalizeStep ([], [])
  if timeRange = "all" && first.nextPageToken ≠ "" then
    let second := source (some first.nextPageToken)
    ((second.memos.foldl poolNormalizeStep st1).1, 2)
  else (st1.1, 1)

/-- `controller.getPoolMemos` including the pool-cache fast path (`cached`
is the result of `poolService.load`). -/
def getPoolMemos (cached : Option (List Memo)) (source : Option String → Page)
    (timeRange : String) : List Memo × Nat :=
  match cached with
  | some c => if 0 < c.length then (c, 0) else getPoolMemosFetch source timeRange
  | none => getPoolMemosFetch source timeRange

/-- A cached deck value. -/
structure Deck where
  key : String
  day : Int
  timeRange : String
  count : Nat
  batch : Nat
  memos : List Memo
  timestamp : Nat
deriving DecidableEq, Repr

/-- The deck-cache store blob (`{ decks, lastKey }`); `decks` is an
association list in object-key insertion order. -/
structure DeckStore where
  decks : List (String × Deck)
  lastKey : String
deriving DecidableEq, Repr

/-- `deckService.makeKey`. -/
def makeKey (day : Int) (timeRange : String) (count : Nat) (batch : Nat) : String :=
  toString day ++ "-" ++ timeRange ++ "-" ++ toString count ++ "-" ++ toString batch

/-- `deckService.getDeck`: object-key lookup (the stored values always pass
the shape check in this typed model). -/
def getDeck (store : DeckStore) (key : String) : Option Deck :=
  (store.decks.find? (fun p => p.1 = key)).map (fun p => p.2)

/-- `store.decks[deck.key] = deck`: update in place when the key exists,
else append. -/
def assocUpdate (l : List (String × Deck)) (k : String) (d : Deck) : List (String × Deck) :=
  if l.any (fun p => p.1 = k) then l.map (fun p => if p.1 = k then (k, d) else p)
  else l ++ [(k, d)]

/-- Comparator `(b.timestamp || 0) - (a.timestamp || 0) <= 0`: timestamp
descending. -/
def tsDescLE (a b : Deck) : Bool :=
  b.timestamp ≤ a.timestamp

/-- `deckService.saveDeck`: insert the deck, then prune to the 10 newest
decks by timestamp. -/
def saveDeck (store : DeckStore) (deck : Deck) : DeckStore :=
  let decks := assocUpdate store.decks deck.key deck
  let sorted := jsSort tsDescLE (decks.map (fun p => p.2))
  let keep := (sorted.take 10).map (fun d => d.key)
  { decks := decks.filter (fun p => p.1 ∈ keep), lastKey := deck.key }

/-- `deckService.isValid`. -/
def isValidDeck (deck : Deck) (expectedKey : String) : Bool :=
  deck.key = expectedKey

/-- The cache-miss path of `controller.loadDeck`: build the deck from the
pool; an empty deck is reported without being cached, otherwise the deck is
sealed with the wall-clock timestamp `now` and saved. -/
def loadDeckMiss (settings : Settings) (today : Int) (batch : Nat) (key : String)
    (store : DeckStore) (history : History) (pool : List Memo) (now : Nat) :
    List Memo × DeckStore :=
  let deckMemos := buildDeckFromPool pool settings history today batch
  if deckMemos.length = 0 then ([], store)
  else
    let deck : Deck :=
      { key := key, day := today, timeRange := settings.timeRange,
        count := settings.count, batch := batch, memos := deckMemos, timestamp := now }
    (deckMemos, saveDeck store deck)

/-- `controller.loadDeck` (with `forceRegenerate = false`): return the cached
deck when the key hits and validates, else run the miss path.  The pool
(cached or freshly acquired — identical across calls when the pool cache is
not invalidated) and the history store are passed explicitly. -/
def loadDeck (settings : Settings) (today : Int) (batch : Nat) (store : DeckStore)
    (history : History) (pool : List Memo) (now : Nat) : List Memo × DeckStore :=
  let key := makeKey today settings.timeRange settings.count batch
  match getDeck store key with
  | some deck =>
    if isValidDeck deck key then (deck.memos, store)
    else loadDeckMiss settings today batch key store history pool now
  | none => loadDeckMiss settings today batch key store history pool now

/-- A value stored in `localStorage`, at the granularity the quota claims
need. -/
inductive StoredVal where
  | deckStoreV (s : DeckStore)
  | poolV (timeRange : String) (memos : List Memo) (ts : Nat)
  | historyV (h : History)
deriving DecidableEq

/-- Abstract serialized size of a stored value (monotone in content, which
is all the quota model needs). -/
def storedSize : StoredVal → Nat
  | .deckStoreV s => 1 + (s.decks.map (fun p => 1 + p.2.memos.length)).sum
  | .poolV _ ms _ => 1 + ms.length
  | .historyV h => 1 + h.items.length

/-- The `localStorage` medium: keyed blobs plus a capacity bound. -/
structure JStorage where
  items : List (String × StoredVal)
  capacity : Nat
deriving DecidableEq

/-- Key update-or-append on the storage items. -/
def jsetItems (items : List (String × StoredVal)) (k : String) (v : StoredVal) :
    List (String × StoredVal) :=
  if items.any (fun p => p.1 = k) then items.map (fun p => if p.1 = k then (k, v) else p)
  else items ++ [(k, v)]

/-- Total occupied size. -/
def storageSize (items : List (String × StoredVal)) : Nat :=
  (items.map (fun p => storedSize p.2)).sum

/-- `localStorage.setItem`: `none` models a thrown `QuotaExceededError`
(the write exceeds the medium's capacity). -/
def setItemQ (st : JStorage) (k : String) (v : StoredVal) : Option JStorage :=
  let newItems := jsetItems st.items k v
  if storageSize newItems ≤ st.capacity then some { st with items := newItems } else none

/-- Storage key constants of `CONFIG`. -/
def CACHE_KEY : String := "memos-daily-review-cache"

/-- `CONFIG.POOL_KEY`. -/
def POOL_KEY : String := "memos-daily-review-pool"

/-- `CONFIG.HISTORY_KEY`. -/
def HISTORY_KEY : String := "memos-daily-review-history"

/-- `deckService.saveStore`: `try { setItem } catch (e) { console.error }` —
on failure the storage is left untouched and nothing is raised. -/
def saveStoreQ (st : JStorage) (store : DeckStore) : JStorage :=
  match setItemQ st CACHE_KEY (StoredVal.deckStoreV store) with
  | some st2 => st2
  | none => st

/-- `poolService.save`: same try/catch-and-log shape. -/
def poolSaveQ (st : JStorage) (timeRange : String) (memos : List Memo) (now : Nat) :
    JStorage :=
  match setItemQ st POOL_KEY (StoredVal.poolV timeRange memos now) with
  | some st2 => st2
  | none => st

/-- `historyService.save`: same try/catch-and-log shape. -/
def historySaveQ (st : JStorage) (h : History) : JStorage :=
  match setItemQ st HISTORY_KEY (StoredVal.historyV h) with
  | some st2 => st2
  | none => st

/-- Modelled from the spec: the three-step quota degradation the
specification describes for a failing deck-store write — (1) drop all but
the 3 most recent decks from the value and retry, (2) drop the pool cache
entry and retry, (3) prune the stored history to 1000 entries and retry,
finally dropping the write silently.  No code under `src/` implements this;
the definition exists only to be compared against the source behaviour. -/
def specThreeStepSaveStore (st : JStorage) (store : DeckStore) : JStorage :=
  match setItemQ st CACHE_KEY (StoredVal.deckStoreV store) with
  | some st2 => st2
  | none =>
    let store3 : DeckStore :=
      { store with decks := (jsSort (fun p q => tsDescLE p.2 q.2) store.decks).take 3 }
    match setItemQ st CACHE_KEY (StoredVal.deckStoreV store3) with
    | some st2 => st2
    | none =>
      let stNoPool : JStorage := { st with items := st.items.filter (fun p => p.1 ≠ POOL_KEY) }
      match setItemQ stNoPool CACHE_KEY (StoredVal.deckStoreV store3) with
      | some st2 => st2
      | none =>
        let stPrunedHist : JStorage :=
          { stNoPool with
            items := stNoPool.items.map (fun p =>
              match p.2 with
              | StoredVal.historyV h =>
                if p.1 = HISTORY_KEY then (p.1, StoredVal.historyV { items := h.items.take 1000 })
                else p
              | _ => p) }
        match setItemQ stPrunedHist CACHE_KEY (StoredVal.deckStoreV store3) with
        | some st2 => st2
        | none => stPrunedHist

/-- State-passing embedding of `buildBuckets`, recording its effect on the
input pool array: the source sorts a spread copy (`[...pool].sort`), so the
pool array itself is returned unchanged. -/
def buildBucketsST (pool : List Memo) :
    (List Memo × List Memo × List Memo) × List Memo :=
  let copy := pool
  let buckets := buildBuckets copy
  (buckets, pool)

/-- State-passing embedding of `interleave`: the source copies each bucket
(`selectedBuckets.map((b) => [...b])`) before shifting, so the bucket
arrays are returned unchanged. -/
def interleaveST (a b c : List Memo) : List Memo × (List Memo × List Memo × List Memo) :=
  (interleave a b c, (a, b, c))

/-- State-passing embedding of `buildDeckFromPool`: every traversal of the
pool (`filter`, the bucket sort, the spark-pair grouping and sorts) happens
on fresh arrays; the mutating operations (`deck.splice`, `buckets[i].shift`)
act on arrays created inside the call, so the input pool is returned
unchanged alongside the deck. -/
def buildDeckFromPoolST (pool : List Memo) (settings : Settings) (history : History)
    (today : Int) (batch : Nat) : List Memo × List Memo :=
  (buildDeckFromPool pool settings history today batch, pool)

/-! Concrete inputs used by the evaluation theorems. -/

/-- A plain eligible memo: non-empty id and content, no tags, no
attachments. -/
def exMemo (id : String) (t : Nat) : Memo :=
  { id := id, name := none, uid := none, createTime := some t, content := "x",
    tags := [], attachments := [] }

/-- A pool of four eligible memos with distinct ids and creation times. -/
def examplePool4 : List Memo :=
  [exMemo "m1" 1, exMemo "m2" 2, exMemo "m3" 3, exMemo "m4" 4]

/-- Settings requesting a 4-card deck. -/
def exampleSettings4 : Settings :=
  { timeRange := "all", count := 4 }

/-- An empty review history. -/
def emptyHistory : History :=
  { items := [] }

/-- A raw memo of the three-page fetch scenario. -/
def c3Raw (pg i : Nat) : RawMemo :=
  { name := some ("memos/p" ++ toString pg ++ "-" ++ toString i), id := none, uid := none,
    createTime := some 100, content := some "memo", attachments := some [] }

/-- One 60-memo page of the scenario. -/
def c3Page (pg : Nat) (tok : String) : Page :=
  { memos := (List.range 60).map (c3Raw pg), nextPageToken := tok }

/-- The memo source of the C3 scenario: 60 distinct memos per page and a
three-page `nextPageToken` chain. -/
def threePageSource : Option String → Page
  | none => c3Page 1 "p2"
  | some t =>
    if t = "p2" then c3Page 2 "p3"
    else if t = "p3" then c3Page 3 ""
    else { memos := [], nextPageToken := "" }

set_option maxRecDepth 100000 in
/-- C1: the deck builder offers no top-up between buckets, so a requested
count within the eligible total can still come up short.  With four
eligible memos (distinct ids, no tags, empty history) and `count = 4`,
`buildBuckets` produces bucket sizes `[2, 2, 0]` while `allocateTargets`
asks `[2, 1, 1]`, and the empty newest bucket forfeits its quota: the deck
has only 3 memos although `C = 4 ≤ |eligible| = 4`. -/
theorem c1_code_evaluated_at_failing_input :
    (examplePool4.filter isEligible).length = 4 ∧
    exampleSettings4.count = 4 ∧
    (buildDeckFromPool examplePool4 exampleSettings4 emptyHistory 0 0).length = 3 := by
  exact ⟨by decide, by decide, by decide⟩

set_option maxRecDepth 100000 in
/-- C2 (counterexample): a pool whose eligible subset has exactly 4 memos
defeats the non-emptiness part of the claim: `third = ceil(4/3) = 2`
exhausts the sorted list after two slices, so the newest bucket is empty. -/
theorem c2_counterexample :
    3 ≤ (examplePool4.filter isEligible).length ∧
    (buildBuckets (examplePool4.filter isEligible)).2.2 = [] := by
  exact ⟨by decide, by decide⟩

set_option maxRecDepth 100000 in
/-- C3: pool acquisition does not loop towards a desired size.  On the
claim's own scenario (60 memos per page, a three-page token chain,
`desiredSize = 150`) the code issues exactly 2 page fetches — the first
page plus the single extra page allowed for the `all` range by
`POOL_MAX_PAGES_ALL = 2` — and returns 120 memos, not at least 150. -/
theorem c3_code_evaluated_at_failing_input :
    (getPoolMemosFetch threePageSource "all").2 = 2 ∧
    (getPoolMemosFetch threePageSource "all").1.length = 120 := by
  exact ⟨by decide, by decide⟩

theorem jsSort_perm (le : α → α → Bool) (l : List α) : List.Perm (jsSort le l) l :=
  List.perm_insertionSort _ l

theorem jsSort_length (le : α → α → Bool) (l : List α) : (jsSort le l).length = l.length :=
  (jsSort_perm le l).length_eq

theorem jsSort_mem {le : α → α → Bool} {l : List α} {x : α} : x ∈ jsSort le l ↔ x ∈ l :=
  (jsSort_perm le l).mem_iff

theorem buildBuckets_eq_of_ne_nil (l : List Memo) (h : l ≠ []) :
    buildBuckets l =
      ((jsSort createTimeLE l).take (((jsSort createTimeLE l).length + 2) / 3),
        ((jsSort createTimeLE l).drop (((jsSort createTimeLE l).length + 2) / 3)).take
          (((jsSort createTimeLE l).length + 2) / 3),
        (jsSort createTimeLE l).drop (2 * (((jsSort createTimeLE l).length + 2) / 3))) := by
  have hlen := jsSort_length createTimeLE l
  have hl : 0 < l.length := List.length_pos.mpr h
  have h0 : ¬((jsSort createTimeLE l).length = 0) := by omega
  simp [buildBuckets, h0]

theorem buildBuckets_union_perm (l : List Memo) :
    List.Perm ((buildBuckets l).1 ++ ((buildBuckets l).2.1 ++ (buildBuckets l).2.2)) l := by
  by_cases h : l = []
  · subst h; decide
  · have hperm := jsSort_perm createTimeLE l
    rw [buildBuckets_eq_of_ne_nil l h]
    set s := jsSort createTimeLE l with hs
    set t := (s.length + 2) / 3 with ht
    have h2 : 2 * t = t + t := by omega
    have e : s.take t ++ ((s.drop t).take t ++ s.drop (2 * t)) = s := by
      rw [h2, ← List.drop_drop, List.take_append_drop, List.take_append_drop]
    simpa [e] using hperm

theorem buildBuckets_all_nonempty (l : List Memo) (h3 : 3 ≤ l.length) (h4 : l.length ≠ 4) :
    (buildBuckets l).1 ≠ [] ∧ (buildBuckets l).2.1 ≠ [] ∧ (buildBuckets l).2.2 ≠ [] := by
  have hlen := jsSort_length createTimeLE l
  have hne : l ≠ [] := by
    intro hl; subst hl; simp at h3
  rw [buildBuckets_eq_of_ne_nil l hne]
  refine ⟨?_, ?_, ?_⟩ <;>
    · rw [← List.length_pos]
      simp only [List.length_take, List.length_drop, hlen]
      omega

/-- C2 (amended): the partition is lossless and duplication-free for every
pool — the three buckets concatenate to a permutation of the eligible
set — and all three buckets are non-empty whenever the eligible subset has
at least 3 memos and its size is not exactly 4. -/
theorem c2_partition (pool : List Memo) :
    List.Perm
      ((buildBuckets (pool.filter isEligible)).1 ++
        ((buildBuckets (pool.filter isEligible)).2.1 ++
          (buildBuckets (pool.filter isEligible)).2.2))
      (pool.filter isEligible) ∧
    (3 ≤ (pool.filter isEligible).length → (pool.filter isEligible).length ≠ 4 →
      (buildBuckets (pool.filter isEligible)).1 ≠ [] ∧
      (buildBuckets (pool.filter isEligible)).2.1 ≠ [] ∧
      (buildBuckets (pool.filter isEligible)).2.2 ≠ []) :=
  ⟨buildBuckets_union_perm _, fun h3 h4 => buildBuckets_all_nonempty _ h3 h4⟩

theorem sortByReviewPriority_mem {bucket : List Memo} {history : History} {today : Int}
    {seedPrefix : String} {minDays : Int} {x : Memo} :
    x ∈ sortByReviewPriority bucket history today seedPrefix minDays ↔
      x ∈ bucket ∧ x.id ≠ "" ∧ dsGE (getDaysSinceShown history x.id today) minDays := by
  unfold sortByReviewPriority
  rw [((jsSort_perm scoredLE _).map (fun s => s.m)).mem_iff]
  simp only [List.map_map]
  have : ((fun (s : Scored) => s.m) ∘ scoreMemo history today seedPrefix) = id := rfl
  rw [this, List.map_id, List.mem_filter, List.mem_filter]
  simp [and_assoc]

theorem pickOne_cases (target : Nat) (picked : List Memo) (m : Memo) :
    pickOne target picked m = picked ∨
      (picked.length < target ∧ m.id ∉ picked.map (fun x => x.id) ∧
        pickOne target picked m = picked ++ [m]) := by
  unfold pickOne
  by_cases h1 : target ≤ picked.length
  · left; simp [h1]
  · by_cases h2 : m.id ∈ picked.map (fun x => x.id)
    · left; simp [h1, h2]
    · right; exact ⟨by omega, h2, by simp [h1, h2]⟩

theorem pickPass_prefix (target : Nat) (picked ordered : List Memo) :
    ∃ s, pickPass target picked ordered = picked ++ s := by
  induction ordered generalizing picked with
  | nil => exact ⟨[], by simp [pickPass]⟩
  | cons m rest ih =>
    show ∃ s, pickPass target (pickOne target picked m) rest = picked ++ s
    rcases pickOne_cases target picked m with h | ⟨_, _, h⟩
    · rw [h]; exact ih picked
    · rcases ih (picked ++ [m]) with ⟨s, hs⟩
      exact ⟨[m] ++ s, by rw [h, hs, List.append_assoc]⟩

theorem pickPass_length_le (target : Nat) (picked ordered : List Memo)
    (h : picked.length ≤ target) : (pickPass target picked ordered).length ≤ target := by
  induction ordered generalizing picked with
  | nil => exact h
  | cons m rest ih =>
    show (pickPass target (pickOne target picked m) rest).length ≤ target
    rcases pickOne_cases target picked m with he | ⟨hlt, _, he⟩
    · rw [he]; exact ih picked h
    · rw [he]; exact ih (picked ++ [m]) (by simp; omega)

theorem pickPass_nodup (target : Nat) (picked ordered : List Memo)
    (h : (picked.map (fun x => x.id)).Nodup) :
    ((pickPass target picked ordered).map (fun x => x.id)).Nodup := by
  induction ordered generalizing picked with
  | nil => exact h
  | cons m rest ih =>
    show ((pickPass target (pickOne target picked m) rest).map (fun x => x.id)).Nodup
    rcases pickOne_cases target picked m with he | ⟨_, hnm, he⟩
    · rw [he]; exact ih picked h
    · rw [he]
      refine ih (picked ++ [m]) ?_
      rw [List.map_append, List.nodup_append]
      refine ⟨h, by simp, ?_⟩
      intro x hx hxa
      simp only [List.map_cons, List.map_nil, List.mem_singleton] at hxa
      subst hxa
      exact hnm hx

theorem pickPass_mem {target : Nat} {picked ordered : List Memo} {x : Memo}
    (h : x ∈ pickPass target picked ordered) : x ∈ picked ∨ x ∈ ordered := by
  induction ordered generalizing picked with
  | nil => exact Or.inl h
  | cons m rest ih =>
    have h2 : x ∈ pickPass target (pickOne target picked m) rest := h
    rcases ih h2 with hx | hx
    · rcases pickOne_cases target picked m with he | ⟨_, _, he⟩
      · rw [he] at hx; exact Or.inl hx
      · rw [he] at hx
        rcases List.mem_append.mp hx with hx | hx
        · exact Or.inl hx
        · simp at hx; subst hx; exact Or.inr (List.mem_cons_self _ _)
    · exact Or.inr (List.mem_cons_of_mem _ hx)

theorem pickPass_complete (target : Nat) (picked ordered : List Memo)
    (h : (pickPass target picked ordered).length < target) :
    ∀ m ∈ ordered, m.id ∈ (pickPass target picked ordered).map (fun x => x.id) := by
  induction ordered generalizing picked with
  | nil => intro m hm; cases hm
  | cons m0 rest ih =>
    intro m hm
    have hstep : pickPass target picked (m0 :: rest) = pickPass target (pickOne target picked m0) rest := rfl
    rcases List.mem_cons.mp hm with hm0 | hmr
    · subst hm0
      rcases pickOne_cases target picked m with he | ⟨_, _, he⟩
      · rcases (em (target ≤ picked.length)) with hc | hc
        · exfalso
          rcases pickPass_prefix target (pickOne target picked m) rest with ⟨s, hs⟩
          rw [hstep, hs, he] at h
          simp at h
          omega
        · have hmem : m.id ∈ (pickOne target picked m).map (fun x => x.id) := by
            unfold pickOne at he ⊢
            by_cases h2 : m.id ∈ picked.map (fun x => x.id)
            · simp only [if_neg hc, if_pos h2]; exact h2
            · exfalso
              simp only [if_neg hc, if_neg h2] at he
              have := congrArg List.length he
              simp at this
          rcases pickPass_prefix target (pickOne target picked m) rest with ⟨s, hs⟩
          rw [hstep, hs, List.map_append]
          exact List.mem_append.mpr (Or.inl hmem)
      · have hmem : m.id ∈ (pickOne target picked m).map (fun x => x.id) := by
          rw [he]; simp
        rcases pickPass_prefix target (pickOne target picked m) rest with ⟨s, hs⟩
        rw [hstep, hs, List.map_append]
        exact List.mem_append.mpr (Or.inl hmem)
    · rw [hstep] at h ⊢
      exact ih (pickOne target picked m0) h m hmr

/-- Distinct ids in a bucket that the loosest relaxation rung (threshold 0)
still offers for picking: a truthy id whose `daysSinceShown` is at least 0.
Every rung of the ladder `[3, 2, 1, 0]` filters a subset of these. -/
def availableIds (bucket : List Memo) (history : History) (today : Int) : List String :=
  (((bucket.filter (fun m => m.id ≠ "")).filter
      (fun m => dsGE (getDaysSinceShown history m.id today) 0)).map (fun m => m.id)).dedup

theorem pickFromBucket_eq (bucket : List Memo) (target : Nat) (history : History)
    (today : Int) (seedPrefix : String) (h0 : target ≠ 0) :
    pickFromBucket bucket target history today seedPrefix =
      (pickPass target (pickPass target (pickPass target (pickPass target []
        (sortByReviewPriority bucket history today seedPrefix 3))
        (sortByReviewPriority bucket history today seedPrefix 2))
        (sortByReviewPriority bucket history today seedPrefix 1))
        (sortByReviewPriority bucket history today seedPrefix 0)).take target := by
  simp [pickFromBucket, h0, pickPass]

/-- C5: `pickFromBucket` returns pairwise-distinct ids, never more than
`target` memos, and comes up short of `target` only when the bucket cannot
supply `target` distinct pickable ids (`availableIds` counts the distinct
truthy ids with `daysSinceShown >= 0`, which is everything the loosest
relaxation rung can offer). -/
theorem c5_pickFromBucket_bounds (bucket : List Memo) (target : Nat) (history : History)
    (today : Int) (seedPrefix : String) :
    ((pickFromBucket bucket target history today seedPrefix).map (fun m => m.id)).Nodup ∧
    (pickFromBucket bucket target history today seedPrefix).length ≤ target ∧
    ((pickFromBucket bucket target history today seedPrefix).length < target →
      (availableIds bucket history today).length < target) := by
  by_cases h0 : target = 0
  · subst h0
    simp [pickFromBucket]
  · rw [pickFromBucket_eq bucket target history today seedPrefix h0]
    set o0 := sortByReviewPriority bucket history today seedPrefix 0 with ho0
    set p1 := pickPass target (pickPass target (pickPass target []
      (sortByReviewPriority bucket history today seedPrefix 3))
      (sortByReviewPriority bucket history today seedPrefix 2))
      (sortByReviewPriority bucket history today seedPrefix 1) with hp1
    set pAll := pickPass target p1 o0 with hpAll
    have hlen : pAll.length ≤ target := by
      apply pickPass_length_le
      apply pickPass_length_le
      apply pickPass_length_le
      apply pickPass_length_le
      simp
    have htake : pAll.take target = pAll := List.take_of_length_le hlen
    rw [htake]
    have hnodup : (pAll.map (fun m => m.id)).Nodup := by
      apply pickPass_nodup
      apply pickPass_nodup
      apply pickPass_nodup
      apply pickPass_nodup
      simp
    refine ⟨hnodup, hlen, ?_⟩
    intro hlt
    have hcomp := pickPass_complete target p1 o0 (by rw [← hpAll]; exact hlt)
    have hnd : (availableIds bucket history today).Nodup := by
      unfold availableIds; exact List.nodup_dedup _
    have hsub : availableIds bucket history today ⊆ pAll.map (fun m => m.id) := by
      intro idv hid
      unfold availableIds at hid
      rw [List.mem_dedup] at hid
      rcases List.mem_map.mp hid with ⟨m, hm, rfl⟩
      have hm2 : m ∈ o0 := by
        rw [ho0, sortByReviewPriority_mem]
        rcases List.mem_filter.mp hm with ⟨hm1, hds⟩
        rcases List.mem_filter.mp hm1 with ⟨hb, hid2⟩
        exact ⟨hb, by simpa using hid2, hds⟩
      rw [← hpAll] at hcomp
      exact hcomp m hm2
    have hle : (availableIds bucket history today).length ≤ (pAll.map (fun m => m.id)).length :=
      (List.subperm_of_subset hnd hsub).length_le
    have : (pAll.map (fun m => m.id)).length = pAll.length := by simp
    omega

/-- Witness for C5 at a concrete bucket, target, history and seed. -/
theorem c5_pickFromBucket_bounds_witness :
    ((pickFromBucket examplePool4 2 emptyHistory 0 "s").map (fun m => m.id)).Nodup ∧
    (pickFromBucket examplePool4 2 emptyHistory 0 "s").length ≤ 2 ∧
    ((pickFromBucket examplePool4 2 emptyHistory 0 "s").length < 2 →
      (availableIds examplePool4 emptyHistory 0).length < 2) :=
  c5_pickFromBucket_bounds examplePool4 2 emptyHistory 0 "s"

theorem interleaveFuel_mem {n : Nat} {a b c : List Memo} {x : Memo}
    (h : x ∈ interleaveFuel n a b c) : x ∈ a ∨ x ∈ b ∨ x ∈ c := by
  induction n generalizing a b c with
  | zero => cases h
  | succ n ih =>
    unfold interleaveFuel at h
    by_cases h0 : a.length + b.length + c.length = 0
    · rw [if_pos h0] at h; cases h
    · rw [if_neg h0] at h
      rcases List.mem_append.mp h with h1 | h2
      · rcases List.mem_append.mp h1 with h3 | h4
        · rcases List.mem_append.mp h3 with h5 | h6
          · exact Or.inl (List.take_subset 1 a h5)
          · exact Or.inr (Or.inl (List.take_subset 1 b h6))
        · exact Or.inr (Or.inr (List.take_subset 1 c h4))
      · rcases ih h2 with h5 | h5 | h5
        · exact Or.inl ((List.tail_sublist a).subset h5)
        · exact Or.inr (Or.inl ((List.tail_sublist b).subset h5))
        · exact Or.inr (Or.inr ((List.tail_sublist c).subset h5))

theorem interleave_mem {a b c : List Memo} {x : Memo}
    (h : x ∈ interleave a b c) : x ∈ a ∨ x ∈ b ∨ x ∈ c :=
  interleaveFuel_mem h

theorem pickFromBucket_mem {bucket : List Memo} {target : Nat} {history : History}
    {today : Int} {seedPrefix : String} {x : Memo}
    (h : x ∈ pickFromBucket bucket target history today seedPrefix) :
    x ∈ bucket ∧ x.id ≠ "" := by
  by_cases h0 : target = 0
  · subst h0; simp [pickFromBucket] at h
  · rw [pickFromBucket_eq bucket target history today seedPrefix h0] at h
    have h2 := List.take_subset target _ h
    have final : ∀ d : Int, x ∈ sortByReviewPriority bucket history today seedPrefix d →
        x ∈ bucket ∧ x.id ≠ "" := by
      intro d hx
      rcases sortByReviewPriority_mem.mp hx with ⟨hb, hid, _⟩
      exact ⟨hb, hid⟩
    rcases pickPass_mem h2 with h3 | h3
    · rcases pickPass_mem h3 with h4 | h4
      · rcases pickPass_mem h4 with h5 | h5
        · rcases pickPass_mem h5 with h6 | h6
          · cases h6
          · exact final 3 h6
        · exact final 2 h5
      · exact final 1 h4
    · exact final 0 h3

theorem buildBuckets_subset (l : List Memo) :
    (buildBuckets l).1 ⊆ l ∧ (buildBuckets l).2.1 ⊆ l ∧ (buildBuckets l).2.2 ⊆ l := by
  by_cases h : l = []
  · subst h; refine ⟨?_, ?_, ?_⟩ <;> intro x hx <;> simp [buildBuckets, jsSort] at hx
  · have hperm := jsSort_perm createTimeLE l
    rw [buildBuckets_eq_of_ne_nil l h]
    refine ⟨?_, ?_, ?_⟩
    · intro x hx; exact hperm.subset (List.take_subset _ _ hx)
    · intro x hx; exact hperm.subset (List.drop_subset _ _ (List.take_subset _ _ hx))
    · intro x hx; exact hperm.subset (List.drop_subset _ _ hx)

theorem dedupById_fold_mem {l : List Memo} {acc : List Memo} {seen : List String} {x : Memo}
    (h : x ∈ (l.foldl
      (fun (st : List Memo × List String) m =>
        if m.id = "" then st else if m.id ∈ st.2 then st else (st.1 ++ [m], m.id :: st.2))
      (acc, seen)).1) :
    x ∈ acc ∨ (x ∈ l ∧ x.id ≠ "") := by
  induction l generalizing acc seen with
  | nil => exact Or.inl h
  | cons m rest ih =>
    simp only [List.foldl_cons] at h
    by_cases h1 : m.id = ""
    · rw [if_pos h1] at h
      rcases ih h with ha | hr
      · exact Or.inl ha
      · exact Or.inr ⟨List.mem_cons_of_mem _ hr.1, hr.2⟩
    · rw [if_neg h1] at h
      by_cases h2 : m.id ∈ seen
      · rw [if_pos h2] at h
        rcases ih h with ha | hr
        · exact Or.inl ha
        · exact Or.inr ⟨List.mem_cons_of_mem _ hr.1, hr.2⟩
      · rw [if_neg h2] at h
        rcases ih h with ha | hr
        · rcases List.mem_append.mp ha with ha2 | ha2
          · exact Or.inl ha2
          · simp only [List.mem_singleton] at ha2
            subst ha2
            exact Or.inr ⟨List.mem_cons_self _ _, h1⟩
        · exact Or.inr ⟨List.mem_cons_of_mem _ hr.1, hr.2⟩

theorem dedupById_mem {l : List Memo} {x : Memo} (h : x ∈ dedupById l) :
    x ∈ l ∧ x.id ≠ "" := by
  unfold dedupById at h
  rcases dedupById_fold_mem h with ha | hr
  · cases ha
  · exact hr

theorem poolFold_ids {l : List RawMemo} {acc : List Memo × List String} {x : Memo}
    (hacc : ∀ y ∈ acc.1, y.id ≠ "")
    (h : x ∈ (l.foldl poolNormalizeStep acc).1) : x.id ≠ "" := by
  induction l generalizing acc with
  | nil => exact hacc x h
  | cons r rest ih =>
    simp only [List.foldl_cons] at h
    refine ih ?_ h
    intro y hy
    unfold poolNormalizeStep at hy
    by_cases h1 : (normalizeMemo r).id = ""
    · rw [if_pos h1] at hy; exact hacc y hy
    · rw [if_neg h1] at hy
      by_cases h2 : (normalizeMemo r).id ∈ acc.2
      · rw [if_pos h2] at hy; exact hacc y hy
      · rw [if_neg h2] at hy
        rcases List.mem_append.mp hy with hy2 | hy2
        · exact hacc y hy2
        · simp only [List.mem_singleton] at hy2
          subst hy2
          exact h1

theorem getPoolMemosFetch_ids (source : Option String → Page) (timeRange : String) :
    ∀ m ∈ (getPoolMemosFetch source timeRange).1, m.id ≠ "" := by
  intro m hm
  simp only [getPoolMemosFetch] at hm
  split at hm
  · exact poolFold_ids (fun y hy => poolFold_ids (fun z hz => by cases hz) hy) hm
  · exact poolFold_ids (fun y hy => by cases hy) hm

theorem buildDeckFromPool_ids (pool : List Memo) (settings : Settings) (history : History)
    (today : Int) (batch : Nat) :
    ∀ m ∈ buildDeckFromPool pool settings history today batch, m.id ≠ "" := by
  intro m hm
  simp only [buildDeckFromPool] at hm
  split at hm
  · cases hm
  · split at hm
    · have h2 := List.take_subset _ _ hm
      rcases interleave_mem h2 with h3 | h3 | h3 <;> exact (pickFromBucket_mem h3).2
    · have h2 := List.take_subset _ _ hm
      exact (dedupById_mem h2).2

/-- Witness for C2: at a concrete pool of five eligible memos the partition
is a permutation of the eligible set and all three buckets are non-empty. -/
theorem c2_partition_witness :
    List.Perm
      ((buildBuckets ((examplePool4 ++ [exMemo "m5" 5]).filter isEligible)).1 ++
        ((buildBuckets ((examplePool4 ++ [exMemo "m5" 5]).filter isEligible)).2.1 ++
          (buildBuckets ((examplePool4 ++ [exMemo "m5" 5]).filter isEligible)).2.2))
      ((examplePool4 ++ [exMemo "m5" 5]).filter isEligible) ∧
    (3 ≤ ((examplePool4 ++ [exMemo "m5" 5]).filter isEligible).length →
      ((examplePool4 ++ [exMemo "m5" 5]).filter isEligible).length ≠ 4 →
      (buildBuckets ((examplePool4 ++ [exMemo "m5" 5]).filter isEligible)).1 ≠ [] ∧
      (buildBuckets ((examplePool4 ++ [exMemo "m5" 5]).filter isEligible)).2.1 ≠ [] ∧
      (buildBuckets ((examplePool4 ++ [exMemo "m5" 5]).filter isEligible)).2.2 ≠ []) :=
  c2_partition (examplePool4 ++ [exMemo "m5" 5])

/-- C9: deck building never mutates the pool it reads.  In the
state-passing embeddings — which record the effect of every array
operation the source performs on the borrowed structures — the pool (and
the bucket lists) come back unchanged from `buildBuckets`, `interleave`
and the whole of `buildDeckFromPool`. -/
theorem c9_frame (pool a b c : List Memo) (settings : Settings) (history : History)
    (today : Int) (batch : Nat) :
    (buildBucketsST pool).2 = pool ∧
    (interleaveST a b c).2 = (a, b, c) ∧
    (buildDeckFromPoolST pool settings history today batch).2 = pool :=
  ⟨rfl, rfl, rfl⟩

/-- C10: a raw memo whose `name`, `id` and `uid` are all absent normalizes
to an empty id; every memo in an acquired pool has a non-empty id (the
fetch loop drops memos whose normalized id is empty); and every memo of a
built deck has a non-empty id. -/
theorem c10_nonempty_ids :
    (∀ r : RawMemo, r.name = none → r.id = none → r.uid = none →
      (normalizeMemo r).id = "") ∧
    (∀ (source : Option String → Page) (timeRange : String),
      ∀ m ∈ (getPoolMemosFetch source timeRange).1, m.id ≠ "") ∧
    (∀ (pool : List Memo) (settings : Settings) (history : History) (today : Int) (batch : Nat),
      ∀ m ∈ buildDeckFromPool pool settings history today batch, m.id ≠ "") := by
  refine ⟨?_, ?_, ?_⟩
  · intro r h1 h2 h3
    simp [normalizeMemo, getMemoId, h1, h2, h3, jsOrS]
  · exact getPoolMemosFetch_ids
  · exact buildDeckFromPool_ids

/-- A raw memo with `name`, `id` and `uid` all absent. -/
def rawAnonymous : RawMemo :=
  { name := none, id := none, uid := none, createTime := some 1, content := some "x",
    attachments := none }

/-- A one-memo single-page source. -/
def onePageSource : Option String → Page :=
  fun _ => { memos := [{ name := some "memos/1", id := none, uid := none,
                         createTime := some 1, content := some "x", attachments := none }],
             nextPageToken := "" }

set_option maxRecDepth 100000 in
/-- Witness for C10: the anonymous raw memo normalizes to an empty id; the
memo acquired from a concrete one-page source has a non-empty id; the
first memo of a concretely built deck has a non-empty id. -/
theorem c10_nonempty_ids_witness :
    (normalizeMemo rawAnonymous).id = "" ∧
    (normalizeMemo { name := some "memos/1", id := none, uid := none,
                     createTime := some 1, content := some "x", attachments := none }).id ≠ "" ∧
    (exMemo "m1" 1).id ≠ "" :=
  ⟨c10_nonempty_ids.1 rawAnonymous rfl rfl rfl,
   c10_nonempty_ids.2.1 onePageSource "6months" _ (by decide),
   c10_nonempty_ids.2.2 examplePool4 exampleSettings4 emptyHistory 0 0 (exMemo "m1" 1) (by decide)⟩


theorem saveDeck_eq (store : DeckStore) (deck : Deck) :
    saveDeck store deck =
      { decks := (assocUpdate store.decks deck.key deck).filter (fun p =>
          p.1 ∈ ((jsSort tsDescLE ((assocUpdate store.decks deck.key deck).map
            (fun p2 => p2.2))).take 10).map (fun d => d.key)),
        lastKey := deck.key } :=
  rfl

theorem assocUpdate_wf {l : List (String × Deck)} {k : String} {d : Deck}
    (hwf : ∀ p ∈ l, p.1 = p.2.key) (hk : k = d.key) :
    ∀ p ∈ assocUpdate l k d, p.1 = p.2.key := by
  intro p hp
  unfold assocUpdate at hp
  split at hp
  · rcases List.mem_map.mp hp with ⟨q, hq, hqe⟩
    by_cases h : q.1 = k
    · rw [← hqe]; simp only [h, if_pos rfl]; exact hk
    · rw [← hqe]; simp only [if_neg h]; exact hwf q hq
  · rcases List.mem_append.mp hp with h | h
    · exact hwf p h
    · simp only [List.mem_singleton] at h
      subst h
      exact hk

theorem assocUpdate_keys_nodup {l : List (String × Deck)} {k : String} {d : Deck}
    (hnd : (l.map (fun p => p.1)).Nodup) :
    ((assocUpdate l k d).map (fun p => p.1)).Nodup := by
  unfold assocUpdate
  split
  case isTrue h =>
    have he : (l.map (fun p => if p.1 = k then (k, d) else p)).map (fun p => p.1) =
        l.map (fun p => p.1) := by
      rw [List.map_map]
      apply List.map_congr_left
      intro p hp
      by_cases hpk : p.1 = k
      · simp [hpk]
      · simp [hpk]
    rw [he]; exact hnd
  case isFalse h =>
    rw [List.map_append, List.nodup_append]
    refine ⟨hnd, by simp, ?_⟩
    intro x hx hxe
    simp only [List.map_cons, List.map_nil, List.mem_singleton] at hxe
    subst hxe
    rcases List.mem_map.mp hx with ⟨q, hq, hqk⟩
    rw [List.any_eq_true] at h
    exact h ⟨q, hq, by simpa using hqk⟩

/-- C8: after every `saveDeck` the deck store holds at most 10 decks; the
retained deck values are exactly the first 10 of the candidate decks
sorted by creation timestamp descending; and every evicted deck's
timestamp is at most every retained deck's timestamp (oldest evicted
first).  The well-formedness hypotheses — each stored entry's key equals
its deck's `key` field, and the object keys are distinct — are invariants
of JS object stores maintained by `saveDeck` itself. -/
theorem c8_deck_retention (store : DeckStore) (deck : Deck)
    (hwf : ∀ p ∈ store.decks, p.1 = p.2.key)
    (hnd : (store.decks.map (fun p => p.1)).Nodup) :
    (saveDeck store deck).decks.length ≤ 10 ∧
    List.Perm ((saveDeck store deck).decks.map (fun p => p.2))
      ((jsSort tsDescLE ((assocUpdate store.decks deck.key deck).map (fun p => p.2))).take 10) ∧
    (∀ p ∈ (saveDeck store deck).decks, ∀ q ∈ assocUpdate store.decks deck.key deck,
      q.2 ∉ (saveDeck store deck).decks.map (fun p2 => p2.2) →
      q.2.timestamp ≤ p.2.timestamp) := by
  have hwfAll : ∀ p ∈ assocUpdate store.decks deck.key deck, p.1 = p.2.key :=
    assocUpdate_wf hwf rfl
  have hndAll : ((assocUpdate store.decks deck.key deck).map (fun p => p.1)).Nodup :=
    assocUpdate_keys_nodup hnd
  set all := assocUpdate store.decks deck.key deck with hall
  set E := all.map (fun p => p.2) with hE
  have hkeysE : all.map (fun p => p.1) = E.map (fun d => d.key) := by
    rw [hE, List.map_map]
    exact List.map_congr_left hwfAll
  have hndKey : (E.map (fun d => d.key)).Nodup := hkeysE ▸ hndAll
  have hndE : E.Nodup := hndKey.of_map _
  have hperm : List.Perm (jsSort tsDescLE E) E := jsSort_perm _ _
  set sorted := jsSort tsDescLE E with hsorted
  set keep := (sorted.take 10).map (fun d => d.key) with hkeep
  have hndTake : (sorted.take 10).Nodup :=
    ((hperm.nodup_iff).mpr hndE).sublist (List.take_sublist 10 sorted)
  have hres : (saveDeck store deck).decks = all.filter (fun p => p.1 ∈ keep) := by
    rw [saveDeck_eq]
  have hmm : ∀ d, d ∈ ((saveDeck store deck).decks.map (fun p => p.2)) ↔ d ∈ sorted.take 10 := by
    intro d
    rw [hres]
    constructor
    · intro hd
      rcases List.mem_map.mp hd with ⟨p, hp, hpe⟩
      have hpf := List.mem_filter.mp hp
      have hk : p.1 ∈ keep := by simpa using hpf.2
      rw [hkeep] at hk
      rcases List.mem_map.mp hk with ⟨d2, hd2, hkey⟩
      have h1 : p.2 ∈ E := List.mem_map.mpr ⟨p, hpf.1, rfl⟩
      have h2 : d2 ∈ E := hperm.subset (List.take_subset _ _ hd2)
      have he : d2 = p.2 := by
        apply List.inj_on_of_nodup_map hndKey h2 h1
        rw [hkey, hwfAll p hpf.1]
      rw [← hpe, ← he]
      exact hd2
    · intro hd
      have hdS : d ∈ E := hperm.subset (List.take_subset _ _ hd)
      rcases List.mem_map.mp hdS with ⟨p, hp, hpe⟩
      refine List.mem_map.mpr ⟨p, ?_, hpe⟩
      refine List.mem_filter.mpr ⟨hp, ?_⟩
      simp only [decide_eq_true_eq]
      rw [hkeep]
      refine List.mem_map.mpr ⟨d, hd, ?_⟩
      rw [← hpe, ← hwfAll p hp]
  have hndRes : ((saveDeck store deck).decks.map (fun p => p.2)).Nodup := by
    rw [hres]
    exact hndE.sublist ((List.filter_sublist all).map (fun p => p.2))
  have hpermRes : List.Perm ((saveDeck store deck).decks.map (fun p => p.2)) (sorted.take 10) :=
    (List.perm_ext_iff_of_nodup hndRes hndTake).mpr hmm
  have hsortS : List.Sorted (fun a b => tsDescLE a b = true) sorted := by
    haveI h1 : IsTotal Deck (fun a b => tsDescLE a b = true) := by
      constructor
      intro a b
      simp only [tsDescLE, decide_eq_true_eq]
      omega
    haveI h2 : IsTrans Deck (fun a b => tsDescLE a b = true) := by
      constructor
      intro a b c hab hbc
      simp only [tsDescLE, decide_eq_true_eq] at hab hbc ⊢
      omega
    exact List.sorted_insertionSort _ E
  refine ⟨?_, hpermRes, ?_⟩
  · have := hpermRes.length_eq
    rw [List.length_map] at this
    rw [this]
    exact List.length_take_le 10 sorted
  · intro p hp q hq hqn
    have hpmem : p.2 ∈ sorted.take 10 := by
      rw [← hmm]
      exact List.mem_map.mpr ⟨p, hp, rfl⟩
    have hq2 : q.2 ∈ E := List.mem_map.mpr ⟨q, hq, rfl⟩
    have hqnn : q.2 ∉ sorted.take 10 := by
      rw [← hmm]; exact hqn
    have hqS : q.2 ∈ sorted := hperm.mem_iff.mpr hq2
    have hqdrop : q.2 ∈ sorted.drop 10 := by
      rcases List.mem_append.mp ((List.take_append_drop 10 sorted) ▸ hqS) with h | h
      · exact absurd h hqnn
      · exact h
    have hsplit : List.Pairwise (fun a b => tsDescLE a b = true) (sorted.take 10 ++ sorted.drop 10) := by
      rw [List.take_append_drop]
      exact hsortS
    have hr := (List.pairwise_append.mp hsplit).2.2 p.2 hpmem q.2 hqdrop
    simpa [tsDescLE] using hr


/-- A minimal deck for the cache witnesses. -/
def exDeck (k : String) (ts : Nat) : Deck :=
  { key := k, day := 0, timeRange := "all", count := 4, batch := 0, memos := [], timestamp := ts }

/-- A well-formed two-deck store. -/
def exStore : DeckStore :=
  { decks := [("a", exDeck "a" 1), ("b", exDeck "b" 2)], lastKey := "b" }

/-- Witness for C8 at a concrete well-formed store. -/
theorem c8_deck_retention_witness :
    (saveDeck exStore (exDeck "c" 3)).decks.length ≤ 10 ∧
    List.Perm ((saveDeck exStore (exDeck "c" 3)).decks.map (fun p => p.2))
      ((jsSort tsDescLE ((assocUpdate exStore.decks (exDeck "c" 3).key (exDeck "c" 3)).map
        (fun p => p.2))).take 10) ∧
    (∀ p ∈ (saveDeck exStore (exDeck "c" 3)).decks,
      ∀ q ∈ assocUpdate exStore.decks (exDeck "c" 3).key (exDeck "c" 3),
      q.2 ∉ (saveDeck exStore (exDeck "c" 3)).decks.map (fun p2 => p2.2) →
      q.2.timestamp ≤ p.2.timestamp) :=
  c8_deck_retention exStore (exDeck "c" 3) (by decide) (by decide)


theorem find?_eq_some_of_unique {α : Type} {p : α → Bool} {l : List α} {x : α}
    (hx : x ∈ l) (hpx : p x = true) (huniq : ∀ y ∈ l, p y = true → y = x) :
    l.find? p = some x := by
  induction l with
  | nil => cases hx
  | cons a t ih =>
    by_cases hpa : p a = true
    · have ha : a = x := huniq a (List.mem_cons_self _ _) hpa
      subst ha
      simp [List.find?_cons_of_pos _ hpa]
    · have hpaf : p a = false := by
        cases hpab : p a with
        | false => rfl
        | true => exact absurd hpab hpa
      rw [List.find?_cons_of_neg _ (by simp [hpaf])]
      apply ih
      · rcases List.mem_cons.mp hx with h | h
        · subst h; exact absurd hpx hpa
        · exact h
      · intro y hy hpy
        exact huniq y (List.mem_cons_of_mem _ hy) hpy

theorem getDeck_some {store : DeckStore} {key : String} {deck : Deck}
    (h : getDeck store key = some deck) :
    ∃ p ∈ store.decks, p.1 = key ∧ p.2 = deck := by
  unfold getDeck at h
  cases hf : store.decks.find? (fun p => p.1 = key) with
  | none => rw [hf] at h; cases h
  | some q =>
    rw [hf] at h
    simp at h
    have h1 := List.mem_of_find?_eq_some hf
    have h2 := List.find?_some hf
    exact ⟨q, h1, by simpa using h2, h⟩

theorem getDeck_saveDeck_fresh (store : DeckStore) (deck : Deck)
    (hwf : ∀ p ∈ store.decks, p.1 = p.2.key)
    (hnd : (store.decks.map (fun p => p.1)).Nodup)
    (hkey : getDeck store deck.key = none)
    (hts : ∀ p ∈ store.decks, p.2.timestamp < deck.timestamp) :
    getDeck (saveDeck store deck) deck.key = some deck := by
  have hfind : store.decks.find? (fun p => p.1 = deck.key) = none := by
    unfold getDeck at hkey
    cases hf : store.decks.find? (fun p => p.1 = deck.key) with
    | none => rfl
    | some q => rw [hf] at hkey; cases hkey
  have hnotany : ¬(store.decks.any (fun p => p.1 = deck.key) = true) := by
    rw [List.any_eq_true]
    rintro ⟨p, hp, hpk⟩
    have h2 := List.find?_eq_none.mp hfind p hp
    exact h2 (by simpa using hpk)
  have hAll : assocUpdate store.decks deck.key deck = store.decks ++ [(deck.key, deck)] := by
    unfold assocUpdate
    rw [if_neg hnotany]
  have hwfAll : ∀ p ∈ assocUpdate store.decks deck.key deck, p.1 = p.2.key :=
    assocUpdate_wf hwf rfl
  have hndAll : ((assocUpdate store.decks deck.key deck).map (fun p => p.1)).Nodup :=
    assocUpdate_keys_nodup hnd
  have hkeysE : (assocUpdate store.decks deck.key deck).map (fun p => p.1) =
      ((assocUpdate store.decks deck.key deck).map (fun p => p.2)).map (fun d => d.key) := by
    rw [List.map_map]
    exact List.map_congr_left hwfAll
  have hndKey : (((assocUpdate store.decks deck.key deck).map (fun p => p.2)).map
      (fun d => d.key)).Nodup := hkeysE ▸ hndAll
  have hndE : ((assocUpdate store.decks deck.key deck).map (fun p => p.2)).Nodup :=
    hndKey.of_map _
  have hperm : List.Perm (jsSort tsDescLE ((assocUpdate store.decks deck.key deck).map
      (fun p => p.2))) ((assocUpdate store.decks deck.key deck).map (fun p => p.2)) :=
    jsSort_perm _ _
  have hdeckE : deck ∈ (assocUpdate store.decks deck.key deck).map (fun p => p.2) := by
    rw [hAll]
    exact List.mem_map.mpr ⟨(deck.key, deck), List.mem_append.mpr (Or.inr (by simp)), rfl⟩
  have hsortS : List.Sorted (fun a b => tsDescLE a b = true)
      (jsSort tsDescLE ((assocUpdate store.decks deck.key deck).map (fun p => p.2))) := by
    haveI h1 : IsTotal Deck (fun a b => tsDescLE a b = true) := by
      constructor
      intro a b
      simp only [tsDescLE, decide_eq_true_eq]
      omega
    haveI h2 : IsTrans Deck (fun a b => tsDescLE a b = true) := by
      constructor
      intro a b c hab hbc
      simp only [tsDescLE, decide_eq_true_eq] at hab hbc ⊢
      omega
    exact List.sorted_insertionSort _ _
  have hdeckTake : deck ∈ (jsSort tsDescLE ((assocUpdate store.decks deck.key deck).map
      (fun p => p.2))).take 10 := by
    by_contra hno
    have hdS : deck ∈ jsSort tsDescLE ((assocUpdate store.decks deck.key deck).map
        (fun p => p.2)) := hperm.mem_iff.mpr hdeckE
    have hdrop : deck ∈ (jsSort tsDescLE ((assocUpdate store.decks deck.key deck).map
        (fun p => p.2))).drop 10 := by
      have hsplit2 : deck ∈ (jsSort tsDescLE ((assocUpdate store.decks deck.key deck).map
          (fun p => p.2))).take 10 ++ (jsSort tsDescLE ((assocUpdate store.decks
          deck.key deck).map (fun p => p.2))).drop 10 := by
        rw [List.take_append_drop]
        exact hdS
      rcases List.mem_append.mp hsplit2 with h | h
      · exact absurd h hno
      · exact h
    have hlen : 10 < (jsSort tsDescLE ((assocUpdate store.decks deck.key deck).map
        (fun p => p.2))).length := by
      by_contra hle
      push_neg at hle
      rw [List.drop_eq_nil_of_le hle] at hdrop
      cases hdrop
    have hx : ∃ x, x ∈ (jsSort tsDescLE ((assocUpdate store.decks deck.key deck).map
        (fun p => p.2))).take 10 := by
      have h10 : ((jsSort tsDescLE ((assocUpdate store.decks deck.key deck).map
          (fun p => p.2))).take 10).length = 10 := by
        rw [List.length_take]
        omega
      have : ((jsSort tsDescLE ((assocUpdate store.decks deck.key deck).map
          (fun p => p.2))).take 10) ≠ [] := by
        intro hnil
        rw [hnil] at h10
        simp at h10
      exact List.exists_mem_of_ne_nil _ this
    rcases hx with ⟨x, hxmem⟩
    have hsortSplit : List.Pairwise (fun a b => tsDescLE a b = true)
        ((jsSort tsDescLE ((assocUpdate store.decks deck.key deck).map
          (fun p => p.2))).take 10 ++ (jsSort tsDescLE ((assocUpdate store.decks
          deck.key deck).map (fun p => p.2))).drop 10) := by
      rw [List.take_append_drop]
      exact hsortS
    have hcross := (List.pairwise_append.mp hsortSplit).2.2 x hxmem deck hdrop
    have hxE : x ∈ (assocUpdate store.decks deck.key deck).map (fun p => p.2) :=
      hperm.subset (List.take_subset _ _ hxmem)
    rcases List.mem_map.mp hxE with ⟨p, hpAll, hpe⟩
    rw [hAll] at hpAll
    rcases List.mem_append.mp hpAll with hpS | hpD
    · have hlt := hts p hpS
      simp only [tsDescLE, decide_eq_true_eq] at hcross
      rw [hpe] at hlt
      omega
    · simp only [List.mem_singleton] at hpD
      rw [hpD] at hpe
      rw [← hpe] at hxmem
      exact hno hxmem
  have hmem : (deck.key, deck) ∈ (saveDeck store deck).decks := by
    rw [saveDeck_eq]
    apply List.mem_filter.mpr
    constructor
    · rw [hAll]
      exact List.mem_append.mpr (Or.inr (by simp))
    · simp only [decide_eq_true_eq]
      exact List.mem_map.mpr ⟨deck, hdeckTake, rfl⟩
  have huniq : ∀ y ∈ (saveDeck store deck).decks, (decide (y.1 = deck.key)) = true →
      y = (deck.key, deck) := by
    intro y hy hyk
    simp only [decide_eq_true_eq] at hyk
    rw [saveDeck_eq] at hy
    have hyAll := (List.mem_filter.mp hy).1
    rw [hAll] at hyAll
    rcases List.mem_append.mp hyAll with h | h
    · exfalso
      have := List.find?_eq_none.mp hfind y h
      simp [hyk] at this
    · simpa using h
  have hfound : (saveDeck store deck).decks.find? (fun p => p.1 = deck.key) =
      some (deck.key, deck) :=
    find?_eq_some_of_unique hmem (by simp) huniq
  unfold getDeck
  rw [hfound]
  rfl

theorem loadDeck_hit {settings : Settings} {today : Int} {batch : Nat} {store : DeckStore}
    {history : History} {pool : List Memo} {now : Nat} {deck : Deck}
    (hg : getDeck store (makeKey today settings.timeRange settings.count batch) = some deck)
    (hv : deck.key = makeKey today settings.timeRange settings.count batch) :
    loadDeck settings today batch store history pool now = (deck.memos, store) := by
  simp only [loadDeck, hg]
  rw [if_pos (by simp [isValidDeck, hv])]

theorem loadDeck_miss {settings : Settings} {today : Int} {batch : Nat} {store : DeckStore}
    {history : History} {pool : List Memo} {now : Nat}
    (hg : getDeck store (makeKey today settings.timeRange settings.count batch) = none) :
    loadDeck settings today batch store history pool now =
      loadDeckMiss settings today batch (makeKey today settings.timeRange settings.count batch)
        store history pool now := by
  simp only [loadDeck, hg]

/-- C4: deck retrieval is deterministic.  Two consecutive `loadDeck` calls
with identical arguments, the second reading the cache state left by the
first, with identical history and pool (no intervening invalidation),
return identical memo-id sequences — whatever the wall-clock values
`now1`, `now2` of the two calls.  The hypotheses are the JS object-store
invariants (entry key equals the deck's `key` field, keys distinct) and
clock sanity (stored decks were created before `now1`). -/
theorem c4_deck_determinism (settings : Settings) (today : Int) (batch : Nat)
    (store : DeckStore) (history : History) (pool : List Memo) (now1 now2 : Nat)
    (hwf : ∀ p ∈ store.decks, p.1 = p.2.key)
    (hnd : (store.decks.map (fun p => p.1)).Nodup)
    (hts : ∀ p ∈ store.decks, p.2.timestamp < now1) :
    ((loadDeck settings today batch
        (loadDeck settings today batch store history pool now1).2
        history pool now2).1).map (fun m => m.id) =
      ((loadDeck settings today batch store history pool now1).1).map (fun m => m.id) := by
  cases hg : getDeck store (makeKey today settings.timeRange settings.count batch) with
  | some deck =>
    have hv : deck.key = makeKey today settings.timeRange settings.count batch := by
      rcases getDeck_some hg with ⟨p, hp, hpk, hpd⟩
      rw [← hpd, ← hwf p hp, hpk]
    rw [loadDeck_hit hg hv, loadDeck_hit hg hv]
  | none =>
    rw [loadDeck_miss hg]
    unfold loadDeckMiss
    by_cases h0 : (buildDeckFromPool pool settings history today batch).length = 0
    · rw [if_pos h0]
      rw [loadDeck_miss hg]
      unfold loadDeckMiss
      rw [if_pos h0]
    · rw [if_neg h0]
      have hfresh := getDeck_saveDeck_fresh store
        { key := makeKey today settings.timeRange settings.count batch, day := today,
          timeRange := settings.timeRange, count := settings.count, batch := batch,
          memos := buildDeckFromPool pool settings history today batch, timestamp := now1 }
        hwf hnd hg hts
      rw [loadDeck_hit hfresh rfl]


set_option maxRecDepth 100000 in
/-- Witness for C4 at concrete settings, store, history and pool. -/
theorem c4_deck_determinism_witness :
    ((loadDeck exampleSettings4 0 0
        (loadDeck exampleSettings4 0 0 exStore emptyHistory examplePool4 5).2
        emptyHistory examplePool4 7).1).map (fun m => m.id) =
      ((loadDeck exampleSettings4 0 0 exStore emptyHistory examplePool4 5).1).map
        (fun m => m.id) :=
  c4_deck_determinism exampleSettings4 0 0 exStore emptyHistory examplePool4 5 7
    (by decide) (by decide) (by decide)


/-- A deck store holding `n` empty decks with distinct keys. -/
def storeOf (n : Nat) : DeckStore :=
  { decks := (List.range n).map (fun i => ("k" ++ toString i, exDeck ("k" ++ toString i) i)),
    lastKey := "" }

/-- The deck count stored under `CACHE_KEY`. -/
def storedDeckCount (st : JStorage) : Nat :=
  match (st.items.find? (fun p => p.1 = CACHE_KEY)).map (fun p => p.2) with
  | some (StoredVal.deckStoreV s) => s.decks.length
  | _ => 0

/-- A storage already holding a 5-deck store, with room for nothing larger. -/
def c7Storage : JStorage :=
  { items := [(CACHE_KEY, StoredVal.deckStoreV (storeOf 5))], capacity := 6 }

/-- The 6-deck store whose write exceeds the capacity. -/
def c7NewStore : DeckStore := storeOf 6

set_option maxRecDepth 100000 in
/-- C7 (counterexample): a deck-store write that fails on capacity is
simply dropped by the source (`try { setItem } catch { log }`): the
storage still holds the previous 5-deck store, no degradation step runs
and no retry happens — unlike the spec-modelled three-step ladder, which
would store the value pruned to its 3 most recent decks. -/
theorem c7_counterexample :
    setItemQ c7Storage CACHE_KEY (StoredVal.deckStoreV c7NewStore) = none ∧
    saveStoreQ c7Storage c7NewStore = c7Storage ∧
    storedDeckCount (saveStoreQ c7Storage c7NewStore) = 5 ∧
    specThreeStepSaveStore c7Storage c7NewStore ≠ saveStoreQ c7Storage c7NewStore ∧
    storedDeckCount (specThreeStepSaveStore c7Storage c7NewStore) = 3 := by
  refine ⟨by decide, by decide, by decide, by decide, by decide⟩

/-- C7 (amended): when the storage medium reports a capacity failure, each
of the three save functions catches the error, logs it and returns with
the storage unchanged — no degradation, no retry, and nothing is raised to
the caller. -/
theorem c7_no_degradation (st : JStorage) (store : DeckStore) (timeRange : String)
    (memos : List Memo) (now : Nat) (h : History)
    (h1 : setItemQ st CACHE_KEY (StoredVal.deckStoreV store) = none)
    (h2 : setItemQ st POOL_KEY (StoredVal.poolV timeRange memos now) = none)
    (h3 : setItemQ st HISTORY_KEY (StoredVal.historyV h) = none) :
    saveStoreQ st store = st ∧ poolSaveQ st timeRange memos now = st ∧
    historySaveQ st h = st := by
  refine ⟨?_, ?_, ?_⟩
  · simp [saveStoreQ, h1]
  · simp [poolSaveQ, h2]
  · simp [historySaveQ, h3]

/-- An empty zero-capacity storage: every write fails. -/
def zeroStorage : JStorage := { items := [], capacity := 0 }

/-- Witness for C7 (amended) at a storage where all three writes fail. -/
theorem c7_no_degradation_witness :
    saveStoreQ zeroStorage (storeOf 5) = zeroStorage ∧
    poolSaveQ zeroStorage "all" [] 0 = zeroStorage ∧
    historySaveQ zeroStorage emptyHistory = zeroStorage :=
  c7_no_degradation zeroStorage (storeOf 5) "all" [] 0 emptyHistory
    (by decide) (by decide) (by decide)


/-- Spark-pair eligibility as the grouping loop applies it: truthy id and
`daysSinceShown >= NO_REPEAT_DAYS (= 3)`. -/
def sparkEligible (history : History) (today : Int) (m : Memo) : Bool :=
  m.id ≠ "" && dsGE (getDaysSinceShown history m.id today) 3

/-- The eligible members of a tag, read off the pool directly. -/
def tagMembers (pool : List Memo) (history : History) (today : Int) (tag : String) :
    List Memo :=
  pool.filter (fun m => sparkEligible history today m && m.tags.contains tag)

/-- The group stored for a tag in the tag map (empty when absent). -/
def groupOf (tm : List (String × List Memo)) (tag : String) : List Memo :=
  ((tm.find? (fun p => p.1 = tag)).map (fun p => p.2)).getD []

theorem groupOf_tagMapInsert (tm : List (String × List Memo)) (t : String) (m : Memo)
    (tag : String) :
    groupOf (tagMapInsert tm t m) tag =
      if tag = t then groupOf tm tag ++ [m] else groupOf tm tag := by
  induction tm with
  | nil =>
    by_cases h : tag = t
    · subst h
      simp [tagMapInsert, groupOf, List.find?]
    · simp [tagMapInsert, groupOf, List.find?, h, Ne.symm h]
  | cons q rest ih =>
    obtain ⟨qk, qv⟩ := q
    by_cases hq : qk = t
    · subst hq
      have he : tagMapInsert ((qk, qv) :: rest) qk m = (qk, qv ++ [m]) :: rest := by
        simp [tagMapInsert]
      rw [he]
      by_cases h : tag = qk
      · subst h
        simp [groupOf, List.find?]
      · have h2 : (decide (qk = tag)) = false := by
          simp only [decide_eq_false_iff_not]
          exact fun hh => h hh.symm
        simp only [groupOf, List.find?, h2]
        rw [if_neg h]
    · have he : tagMapInsert ((qk, qv) :: rest) t m = (qk, qv) :: tagMapInsert rest t m := by
        simp [tagMapInsert, hq]
      rw [he]
      by_cases hqt : qk = tag
      · have hne : ¬(tag = t) := fun hh => hq (hqt.trans hh)
        have h2 : (decide (qk = tag)) = true := by simp [hqt]
        simp only [groupOf, List.find?, h2]
        rw [if_neg hne]
      · have h2 : (decide (qk = tag)) = false := by simp [hqt]
        simp only [groupOf, List.find?, h2]
        exact ih


theorem groupOf_tagsFold (m : Memo) (tag : String) (ts : List String) :
    ∀ acc, ts.Nodup →
      groupOf (ts.foldl (fun acc2 tg => if tg = "" then acc2 else tagMapInsert acc2 tg m) acc)
          tag =
        groupOf acc tag ++ (if tag ∈ ts ∧ tag ≠ "" then [m] else []) := by
  induction ts with
  | nil => intro acc _; simp
  | cons t ts2 ih =>
    intro acc hnd
    have hnd2 : ts2.Nodup := (List.nodup_cons.mp hnd).2
    have hnotin : t ∉ ts2 := (List.nodup_cons.mp hnd).1
    simp only [List.foldl_cons]
    by_cases ht : t = ""
    · rw [if_pos ht, ih acc hnd2]
      have hiff : (tag ∈ ts2 ∧ tag ≠ "") ↔ (tag ∈ t :: ts2 ∧ tag ≠ "") := by
        constructor
        · rintro ⟨h1, h2⟩; exact ⟨List.mem_cons_of_mem _ h1, h2⟩
        · rintro ⟨h1, h2⟩
          rcases List.mem_cons.mp h1 with h | h
          · exact absurd (h.trans ht) h2
          · exact ⟨h, h2⟩
      rw [if_congr hiff rfl rfl]
    · rw [if_neg ht, ih (tagMapInsert acc t m) hnd2, groupOf_tagMapInsert]
      by_cases htagt : tag = t
      · subst htagt
        rw [if_pos rfl]
        rw [if_neg (fun hc => hnotin hc.1)]
        rw [if_pos ⟨List.mem_cons_self _ _, ht⟩]
        simp
      · rw [if_neg htagt]
        have hiff : (tag ∈ ts2 ∧ tag ≠ "") ↔ (tag ∈ t :: ts2 ∧ tag ≠ "") := by
          constructor
          · rintro ⟨h1, h2⟩; exact ⟨List.mem_cons_of_mem _ h1, h2⟩
          · rintro ⟨h1, h2⟩
            rcases List.mem_cons.mp h1 with h | h
            · exact absurd h htagt
            · exact ⟨h, h2⟩
        rw [if_congr hiff rfl rfl]

theorem groupOf_poolFold (history : History) (today : Int) (tag : String) (htag : tag ≠ "")
    (pool : List Memo) :
    ∀ acc, (∀ m ∈ pool, m.tags.Nodup) →
      groupOf (pool.foldl
        (fun acc2 memo =>
          if memo.id = "" then acc2
          else if !dsGE (getDaysSinceShown history memo.id today) 3 then acc2
          else memo.tags.foldl
            (fun acc3 tg => if tg = "" then acc3 else tagMapInsert acc3 tg memo) acc2)
        acc) tag =
      groupOf acc tag ++ tagMembers pool history today tag := by
  induction pool with
  | nil => intro acc _; simp [tagMembers]
  | cons m rest ih =>
    intro acc htags
    have htagsm : m.tags.Nodup := htags m (List.mem_cons_self _ _)
    have htags2 : ∀ x ∈ rest, x.tags.Nodup := fun x hx => htags x (List.mem_cons_of_mem _ hx)
    simp only [List.foldl_cons]
    rw [ih _ htags2]
    have hstep : groupOf
        (if m.id = "" then acc
          else if !dsGE (getDaysSinceShown history m.id today) 3 then acc
          else m.tags.foldl
            (fun acc3 tg => if tg = "" then acc3 else tagMapInsert acc3 tg m) acc) tag =
        groupOf acc tag ++
          (if (sparkEligible history today m && m.tags.contains tag) = true then [m]
            else []) := by
      by_cases h1 : m.id = ""
      · rw [if_pos h1]
        have he : sparkEligible history today m = false := by
          simp [sparkEligible, h1]
        rw [he]
        simp
      · rw [if_neg h1]
        by_cases h2 : dsGE (getDaysSinceShown history m.id today) 3 = false
        · rw [if_pos (by simp [h2])]
          have he : sparkEligible history today m = false := by
            simp [sparkEligible, h2]
          rw [he]
          simp
        · have h2t : dsGE (getDaysSinceShown history m.id today) 3 = true := by
            cases hx : dsGE (getDaysSinceShown history m.id today) 3 with
            | false => exact absurd hx h2
            | true => rfl
          rw [if_neg (by simp [h2t])]
          rw [groupOf_tagsFold m tag m.tags acc htagsm]
          have he : sparkEligible history today m = true := by
            simp [sparkEligible, h1, h2t]
          rw [he]
          congr 1
          by_cases hc : tag ∈ m.tags
          · rw [if_pos ⟨hc, htag⟩]
            simp [hc]
          · rw [if_neg (fun hh => hc hh.1)]
            simp [hc]
    rw [hstep]
    have hcons : tagMembers (m :: rest) history today tag =
        (if (sparkEligible history today m && m.tags.contains tag) = true then [m] else []) ++
          tagMembers rest history today tag := by
      simp only [tagMembers, List.filter_cons]
      split
      · simp
      · simp
    rw [hcons, List.append_assoc]

theorem groupOf_buildTagMap (pool : List Memo) (history : History) (today : Int)
    (tag : String) (htag : tag ≠ "") (htags : ∀ m ∈ pool, m.tags.Nodup) :
    groupOf (buildTagMap pool history today) tag = tagMembers pool history today tag := by
  unfold buildTagMap
  rw [groupOf_poolFold history today tag htag pool [] htags]
  simp [groupOf]


theorem tagMapInsert_keys (tm : List (String × List Memo)) (t : String) (m : Memo) :
    (tagMapInsert tm t m).map (fun p => p.1) =
      if t ∈ tm.map (fun p => p.1) then tm.map (fun p => p.1)
      else tm.map (fun p => p.1) ++ [t] := by
  induction tm with
  | nil => simp [tagMapInsert]
  | cons q rest ih =>
    obtain ⟨qk, qv⟩ := q
    by_cases hq : qk = t
    · subst hq
      have he : tagMapInsert ((qk, qv) :: rest) qk m = (qk, qv ++ [m]) :: rest := by
        simp [tagMapInsert]
      rw [he]
      simp
    · have he : tagMapInsert ((qk, qv) :: rest) t m = (qk, qv) :: tagMapInsert rest t m := by
        simp [tagMapInsert, hq]
      rw [he]
      have htq : ¬(t = qk) := fun hh => hq hh.symm
      by_cases hmem : t ∈ rest.map (fun p => p.1)
      · simp only [List.map_cons, ih, hmem, if_pos]
        rw [if_pos (List.mem_cons_of_mem _ hmem)]
      · have hnot : ¬(t ∈ qk :: rest.map (fun p => p.1)) := by
          intro hc
          rcases List.mem_cons.mp hc with h | h
          · exact htq h
          · exact hmem h
        rw [List.map_cons, List.map_cons, ih, if_neg hmem]
        rw [if_neg (by simpa using hnot)]
        simp

theorem tagMapInsert_keys_nodup {tm : List (String × List Memo)} (t : String) (m : Memo)
    (h : (tm.map (fun p => p.1)).Nodup) :
    ((tagMapInsert tm t m).map (fun p => p.1)).Nodup := by
  rw [tagMapInsert_keys]
  split
  · exact h
  case isFalse hmem =>
    rw [List.nodup_append]
    refine ⟨h, by simp, ?_⟩
    intro x hx hxe
    simp only [List.mem_singleton] at hxe
    subst hxe
    exact hmem hx

theorem tagMapInsert_keys_ne {tm : List (String × List Memo)} {t : String} {m : Memo}
    (h : ∀ p ∈ tm, p.1 ≠ "") (ht : t ≠ "") :
    ∀ p ∈ tagMapInsert tm t m, p.1 ≠ "" := by
  intro p hp
  have hk : p.1 ∈ (tagMapInsert tm t m).map (fun q => q.1) := List.mem_map.mpr ⟨p, hp, rfl⟩
  rw [tagMapInsert_keys] at hk
  have hcases : p.1 ∈ tm.map (fun q => q.1) ∨ p.1 = t := by
    split at hk
    · exact Or.inl hk
    · rcases List.mem_append.mp hk with h1 | h1
      · exact Or.inl h1
      · simp only [List.mem_singleton] at h1
        exact Or.inr h1
  rcases hcases with h1 | h1
  · rcases List.mem_map.mp h1 with ⟨q, hq, hqe⟩
    rw [← hqe]
    exact h q hq
  · rw [h1]
    exact ht

theorem tagsFold_keys (m : Memo) (ts : List String) :
    ∀ acc : List (String × List Memo),
      ((acc.map (fun p => p.1)).Nodup ∧ ∀ p ∈ acc, p.1 ≠ "") →
      (((ts.foldl (fun acc2 tg => if tg = "" then acc2 else tagMapInsert acc2 tg m) acc).map
          (fun p => p.1)).Nodup ∧
        ∀ p ∈ ts.foldl (fun acc2 tg => if tg = "" then acc2 else tagMapInsert acc2 tg m) acc,
          p.1 ≠ "") := by
  induction ts with
  | nil => intro acc h; exact h
  | cons t ts2 ih =>
    intro acc h
    simp only [List.foldl_cons]
    apply ih
    by_cases ht : t = ""
    · rw [if_pos ht]; exact h
    · rw [if_neg ht]
      exact ⟨tagMapInsert_keys_nodup t m h.1, tagMapInsert_keys_ne h.2 ht⟩

theorem buildTagMap_keys (pool : List Memo) (history : History) (today : Int) :
    ((buildTagMap pool history today).map (fun p => p.1)).Nodup ∧
    ∀ p ∈ buildTagMap pool history today, p.1 ≠ "" := by
  unfold buildTagMap
  suffices h : ∀ acc : List (String × List Memo),
      ((acc.map (fun p => p.1)).Nodup ∧ ∀ p ∈ acc, p.1 ≠ "") →
      (((pool.foldl
        (fun acc2 memo =>
          if memo.id = "" then acc2
          else if !dsGE (getDaysSinceShown history memo.id today) 3 then acc2
          else memo.tags.foldl
            (fun acc3 tg => if tg = "" then acc3 else tagMapInsert acc3 tg memo) acc2)
        acc).map (fun p => p.1)).Nodup ∧
        ∀ p ∈ pool.foldl
          (fun acc2 memo =>
            if memo.id = "" then acc2
            else if !dsGE (getDaysSinceShown history memo.id today) 3 then acc2
            else memo.tags.foldl
              (fun acc3 tg => if tg = "" then acc3 else tagMapInsert acc3 tg memo) acc2)
          acc, p.1 ≠ "") by
    exact h [] ⟨by simp, by simp⟩
  induction pool with
  | nil => intro acc h; exact h
  | cons m rest ih =>
    intro acc h
    simp only [List.foldl_cons]
    apply ih
    by_cases h1 : m.id = ""
    · rw [if_pos h1]; exact h
    · rw [if_neg h1]
      by_cases h2 : (!dsGE (getDaysSinceShown history m.id today) 3) = true
      · rw [if_pos h2]; exact h
      · rw [if_neg h2]
        exact tagsFold_keys m m.tags acc h

theorem groupOf_of_mem {tm : List (String × List Memo)} {p : String × List Memo}
    (hnd : (tm.map (fun q => q.1)).Nodup) (hp : p ∈ tm) : groupOf tm p.1 = p.2 := by
  have hfind : tm.find? (fun q => q.1 = p.1) = some p := by
    apply find?_eq_some_of_unique hp (by simp)
    intro y hy hyp
    have h2 : y.1 = p.1 := by simpa using hyp
    exact List.inj_on_of_nodup_map hnd hy hp h2
  simp [groupOf, hfind]


theorem sorted_jsSort_createTime (l : List Memo) :
    List.Pairwise (fun a b => createTimeLE a b = true) (jsSort createTimeLE l) := by
  haveI h1 : IsTotal Memo (fun a b => createTimeLE a b = true) := by
    constructor
    intro a b
    simp only [createTimeLE, decide_eq_true_eq]
    omega
  haveI h2 : IsTrans Memo (fun a b => createTimeLE a b = true) := by
    constructor
    intro a b c hab hbc
    simp only [createTimeLE, decide_eq_true_eq] at hab hbc ⊢
    omega
  exact List.sorted_insertionSort _ _

theorem sorted_jsSort_cand (l : List SparkCand) :
    List.Pairwise (fun a b => candLE a b = true) (jsSort candLE l) := by
  haveI h1 : IsTotal SparkCand (fun a b => candLE a b = true) := by
    constructor
    intro a b
    simp only [candLE, decide_eq_true_eq]
    omega
  haveI h2 : IsTrans SparkCand (fun a b => candLE a b = true) := by
    constructor
    intro a b c hab hbc
    simp only [candLE, decide_eq_true_eq] at hab hbc ⊢
    omega
  exact List.sorted_insertionSort _ _

theorem head?_min_of_pairwise {α : Type} {r : α → α → Prop} {l : List α} {h : α}
    (hp : List.Pairwise r l) (hh : l.head? = some h) :
    ∀ x ∈ l, x = h ∨ r h x := by
  cases l with
  | nil => cases hh
  | cons a t =>
    simp only [List.head?_cons, Option.some.injEq] at hh
    subst hh
    intro x hx
    rcases List.mem_cons.mp hx with h1 | h1
    · exact Or.inl h1
    · exact Or.inr ((List.pairwise_cons.mp hp).1 x h1)

theorem getLast?_max_of_pairwise {α : Type} {r : α → α → Prop} {l : List α} {g : α}
    (hp : List.Pairwise r l) (hg : l.getLast? = some g) :
    ∀ x ∈ l, x = g ∨ r x g := by
  induction l with
  | nil => cases hg
  | cons a t ih =>
    cases t with
    | nil =>
      simp only [List.getLast?_singleton, Option.some.injEq] at hg
      intro x hx
      simp only [List.mem_singleton] at hx
      exact Or.inl (by rw [hx, hg])
    | cons b t2 =>
      rw [List.getLast?_cons_cons] at hg
      have hp2 := (List.pairwise_cons.mp hp).2
      have hcr := (List.pairwise_cons.mp hp).1
      intro x hx
      rcases List.mem_cons.mp hx with h1 | h1
      · subst h1
        have hgmem : g ∈ b :: t2 := List.mem_of_mem_getLast? (by rw [hg]; simp)
        exact Or.inr (hcr g hgmem)
      · exact ih hp2 hg x h1

theorem head_ne_last_id {l : List Memo} (hnd : (l.map (fun m => m.id)).Nodup)
    (hlen : 2 ≤ l.length) {h g : Memo} (hh : l.head? = some h) (hg : l.getLast? = some g) :
    h.id ≠ g.id := by
  cases l with
  | nil => cases hh
  | cons a t =>
    cases t with
    | nil => simp at hlen
    | cons b t2 =>
      simp only [List.head?_cons, Option.some.injEq] at hh
      subst hh
      rw [List.getLast?_cons_cons] at hg
      have hgmem : g ∈ b :: t2 := List.mem_of_mem_getLast? (by rw [hg]; simp)
      rw [List.map_cons, List.nodup_cons] at hnd
      intro he
      exact hnd.1 (he ▸ List.mem_map.mpr ⟨g, hgmem, rfl⟩)

theorem sparkStep_eq_or (sp : String) (acc : List SparkCand) (p : String × List Memo) :
    sparkStep sp acc p = acc ∨
      (2 ≤ p.2.length ∧ ∃ h l, (jsSort createTimeLE p.2).head? = some h ∧
        (jsSort createTimeLE p.2).getLast? = some l ∧ h.id ≠ l.id ∧
        sparkStep sp acc p =
          acc ++ [(⟨p.1, h, l, stringToSeed (sp ++ "-tag-" ++ p.1)⟩ : SparkCand)]) := by
  by_cases h2 : p.2.length < 2
  · left
    simp only [sparkStep]
    rw [if_pos h2]
  · cases hh : (jsSort createTimeLE p.2).head? with
    | none =>
      left
      simp only [sparkStep, hh]
      rw [if_neg h2]
    | some h =>
      cases hl : (jsSort createTimeLE p.2).getLast? with
      | none =>
        left
        simp only [sparkStep, hh, hl]
        rw [if_neg h2]
      | some l =>
        by_cases hid : h.id = l.id
        · left
          simp only [sparkStep, hh, hl]
          rw [if_neg h2, if_pos hid]
        · right
          refine ⟨by omega, h, l, rfl, rfl, hid, ?_⟩
          simp only [sparkStep, hh, hl]
          rw [if_neg h2, if_neg hid]

theorem sparkFold_prefix (sp : String) (tm : List (String × List Memo)) :
    ∀ acc, ∃ s, tm.foldl (sparkStep sp) acc = acc ++ s := by
  induction tm with
  | nil => intro acc; exact ⟨[], by simp⟩
  | cons q rest ih =>
    intro acc
    simp only [List.foldl_cons]
    rcases sparkStep_eq_or sp acc q with he | ⟨_, h0, l0, _, _, _, he⟩
    · rw [he]; exact ih acc
    · rw [he]
      rcases ih (acc ++ [(⟨q.1, h0, l0, stringToSeed (sp ++ "-tag-" ++ q.1)⟩ : SparkCand)])
        with ⟨s, hs⟩
      exact ⟨[(⟨q.1, h0, l0, stringToSeed (sp ++ "-tag-" ++ q.1)⟩ : SparkCand)] ++ s,
        by rw [hs, List.append_assoc]⟩

theorem sparkFold_mem {sp : String} {tm : List (String × List Memo)} {c : SparkCand} :
    ∀ acc, c ∈ tm.foldl (sparkStep sp) acc →
      c ∈ acc ∨ ∃ p ∈ tm, 2 ≤ p.2.length ∧
        (jsSort createTimeLE p.2).head? = some c.oldest ∧
        (jsSort createTimeLE p.2).getLast? = some c.newest ∧
        c.oldest.id ≠ c.newest.id ∧ c.tag = p.1 ∧
        c.tie = stringToSeed (sp ++ "-tag-" ++ p.1) := by
  induction tm with
  | nil => intro acc h; exact Or.inl h
  | cons q rest ih =>
    intro acc h
    simp only [List.foldl_cons] at h
    rcases ih _ h with hacc | ⟨p, hp, hrest⟩
    · rcases sparkStep_eq_or sp acc q with he | ⟨hlen, h0, l0, hh, hl, hne, he⟩
      · rw [he] at hacc
        exact Or.inl hacc
      · rw [he] at hacc
        rcases List.mem_append.mp hacc with h1 | h1
        · exact Or.inl h1
        · simp only [List.mem_singleton] at h1
          subst h1
          exact Or.inr ⟨q, List.mem_cons_self _ _, hlen, hh, hl, hne, rfl, rfl⟩
    · exact Or.inr ⟨p, List.mem_cons_of_mem _ hp, hrest⟩

theorem sparkCandidates_exists {sp : String} {tm : List (String × List Memo)}
    {p : String × List Memo} (hp : p ∈ tm) (hlen : 2 ≤ p.2.length) {h l : Memo}
    (hh : (jsSort createTimeLE p.2).head? = some h)
    (hl : (jsSort createTimeLE p.2).getLast? = some l)
    (hne : h.id ≠ l.id) :
    (⟨p.1, h, l, stringToSeed (sp ++ "-tag-" ++ p.1)⟩ : SparkCand) ∈
      sparkCandidates tm sp := by
  unfold sparkCandidates
  suffices hs : ∀ (tm2 : List (String × List Memo)) (acc : List SparkCand), p ∈ tm2 →
      (⟨p.1, h, l, stringToSeed (sp ++ "-tag-" ++ p.1)⟩ : SparkCand) ∈
        tm2.foldl (sparkStep sp) acc by
    exact hs tm [] hp
  intro tm2
  induction tm2 with
  | nil => intro acc hc; cases hc
  | cons q rest ih =>
    intro acc hc
    simp only [List.foldl_cons]
    rcases List.mem_cons.mp hc with hq | hq
    · subst hq
      have he : sparkStep sp acc p =
          acc ++ [(⟨p.1, h, l, stringToSeed (sp ++ "-tag-" ++ p.1)⟩ : SparkCand)] := by
        simp only [sparkStep, hh, hl]
        rw [if_neg (by omega), if_neg hne]
      rw [he]
      rcases sparkFold_prefix sp rest
        (acc ++ [(⟨p.1, h, l, stringToSeed (sp ++ "-tag-" ++ p.1)⟩ : SparkCand)])
        with ⟨s, hs2⟩
      rw [hs2]
      simp
    · exact ih _ hq

theorem sparkCandidates_nil {sp : String} {tm : List (String × List Memo)}
    (h : ∀ p ∈ tm, p.2.length < 2) : sparkCandidates tm sp = [] := by
  unfold sparkCandidates
  suffices hs : ∀ (tm2 : List (String × List Memo)) (acc : List SparkCand),
      (∀ p ∈ tm2, p.2.length < 2) → tm2.foldl (sparkStep sp) acc = acc by
    exact hs tm [] h
  intro tm2
  induction tm2 with
  | nil => intro acc _; rfl
  | cons q rest ih =>
    intro acc hsmall
    simp only [List.foldl_cons]
    have he : sparkStep sp acc q = acc := by
      simp only [sparkStep]
      rw [if_pos (hsmall q (List.mem_cons_self _ _))]
    rw [he]
    exact ih acc (fun p2 hp2 => hsmall p2 (List.mem_cons_of_mem _ hp2))


theorem candidate_of_members (sp : String) {pool : List Memo} {history : History}
    {today : Int} {tag : String}
    (hid : (pool.map (fun m => m.id)).Nodup)
    (htags : ∀ m ∈ pool, m.tags.Nodup)
    (htag : tag ≠ "") (hlen : 2 ≤ (tagMembers pool history today tag).length) :
    ∃ c ∈ sparkCandidates (buildTagMap pool history today) sp,
      c.tag = tag ∧ c.tie = stringToSeed (sp ++ "-tag-" ++ tag) := by
  have hgroup : groupOf (buildTagMap pool history today) tag =
      tagMembers pool history today tag :=
    groupOf_buildTagMap pool history today tag htag htags
  cases hf : (buildTagMap pool history today).find? (fun p => p.1 = tag) with
  | none =>
    exfalso
    have hgnil : groupOf (buildTagMap pool history today) tag = [] := by simp [groupOf, hf]
    rw [hgnil] at hgroup
    rw [← hgroup] at hlen
    simp at hlen
  | some q =>
    have hqmem : q ∈ buildTagMap pool history today := List.mem_of_find?_eq_some hf
    have hqtag : q.1 = tag := by simpa using List.find?_some hf
    have hq2 : q.2 = tagMembers pool history today tag := by
      have hg2 : groupOf (buildTagMap pool history today) tag = q.2 := by simp [groupOf, hf]
      rw [← hg2, hgroup]
    have hlen2 : 2 ≤ q.2.length := by rw [hq2]; exact hlen
    have hslen : 2 ≤ (jsSort createTimeLE q.2).length := by
      rw [jsSort_length]; exact hlen2
    have hsne : jsSort createTimeLE q.2 ≠ [] := by
      intro hnil; rw [hnil] at hslen; simp at hslen
    obtain ⟨h0, hh⟩ : ∃ h0, (jsSort createTimeLE q.2).head? = some h0 := by
      cases hcl : (jsSort createTimeLE q.2) with
      | nil => exact absurd hcl hsne
      | cons a t => exact ⟨a, rfl⟩
    obtain ⟨l0, hl⟩ : ∃ l0, (jsSort createTimeLE q.2).getLast? = some l0 :=
      ⟨(jsSort createTimeLE q.2).getLast hsne, List.getLast?_eq_getLast _ hsne⟩
    have hids : ((jsSort createTimeLE q.2).map (fun m => m.id)).Nodup := by
      have hperm : List.Perm ((jsSort createTimeLE q.2).map (fun m => m.id))
          (q.2.map (fun m => m.id)) := (jsSort_perm createTimeLE q.2).map _
      apply hperm.nodup_iff.mpr
      rw [hq2]
      exact hid.sublist ((List.filter_sublist pool).map _)
    have hne2 : h0.id ≠ l0.id := head_ne_last_id hids hslen hh hl
    refine ⟨⟨q.1, h0, l0, stringToSeed (sp ++ "-tag-" ++ q.1)⟩,
      sparkCandidates_exists hqmem hlen2 hh hl hne2, hqtag, ?_⟩
    rw [hqtag]


/-- C6: `findSparkPair` returns `null` exactly when no non-empty tag has at
least two eligible members (eligible: truthy id and `daysSinceShown >= 3`);
otherwise the returned pair consists of an earliest-created and a
latest-created eligible member of a tag whose deterministic tie-break hash
of `seedPrefix + "-tag-" + tag` is least among all tags with at least two
eligible members.  Hypotheses: pool ids are distinct (the pool is dedup by
id) and each memo's tag list is duplicate-free (as `extractTags` produces). -/
theorem c6_findSparkPair_characterization (pool : List Memo) (history : History)
    (today : Int) (seedPrefix : String)
    (hid : (pool.map (fun m => m.id)).Nodup)
    (htags : ∀ m ∈ pool, m.tags.Nodup) :
    (findSparkPair pool history today seedPrefix = none ↔
      ∀ tag, tag ≠ "" → (tagMembers pool history today tag).length < 2) ∧
    (∀ a b, findSparkPair pool history today seedPrefix = some (a, b) →
      ∃ tag, tag ≠ "" ∧
        a ∈ tagMembers pool history today tag ∧
        b ∈ tagMembers pool history today tag ∧
        a.id ≠ b.id ∧
        (∀ m ∈ tagMembers pool history today tag, ctMs a ≤ ctMs m ∧ ctMs m ≤ ctMs b) ∧
        (∀ tag2, tag2 ≠ "" → 2 ≤ (tagMembers pool history today tag2).length →
          stringToSeed (seedPrefix ++ "-tag-" ++ tag) ≤
            stringToSeed (seedPrefix ++ "-tag-" ++ tag2))) := by
  have hkeys := buildTagMap_keys pool history today
  constructor
  · constructor
    · intro hnone tag htag
      by_contra hbig
      push_neg at hbig
      rcases candidate_of_members seedPrefix hid htags htag hbig with ⟨c, hc, _, _⟩
      have hne : sparkCandidates (buildTagMap pool history today) seedPrefix ≠ [] := by
        intro hnil; rw [hnil] at hc; cases hc
      unfold findSparkPair at hnone
      rw [if_neg (by simpa [List.isEmpty_iff] using hne)] at hnone
      have hscne : jsSort candLE (sparkCandidates (buildTagMap pool history today) seedPrefix)
          ≠ [] := by
        intro hnil
        have hl0 := jsSort_length candLE
          (sparkCandidates (buildTagMap pool history today) seedPrefix)
        rw [hnil] at hl0
        exact hne (List.length_eq_zero.mp hl0.symm)
      cases hhead : (jsSort candLE
          (sparkCandidates (buildTagMap pool history today) seedPrefix)).head? with
      | none =>
        rw [List.head?_eq_none_iff] at hhead
        exact hscne hhead
      | some c2 =>
        rw [hhead] at hnone
        cases hnone
    · intro hsmall
      have hnil : sparkCandidates (buildTagMap pool history today) seedPrefix = [] := by
        apply sparkCandidates_nil
        intro p hp
        have hptag : p.1 ≠ "" := hkeys.2 p hp
        have hpm : p.2 = tagMembers pool history today p.1 := by
          rw [← groupOf_of_mem hkeys.1 hp,
            groupOf_buildTagMap pool history today p.1 hptag htags]
        rw [hpm]
        exact hsmall p.1 hptag
      unfold findSparkPair
      rw [hnil]
      rfl
  · intro a b hsome
    unfold findSparkPair at hsome
    by_cases hemp : (sparkCandidates (buildTagMap pool history today) seedPrefix).isEmpty = true
    · rw [if_pos hemp] at hsome; cases hsome
    · rw [if_neg hemp] at hsome
      cases hhead : (jsSort candLE
          (sparkCandidates (buildTagMap pool history today) seedPrefix)).head? with
      | none => rw [hhead] at hsome; cases hsome
      | some c =>
        rw [hhead] at hsome
        have hsome2 : some (c.oldest, c.newest) = some (a, b) := hsome
        have hab : c.oldest = a ∧ c.newest = b := by
          simp only [Option.some.injEq, Prod.mk.injEq] at hsome2
          exact hsome2
        have hcmem : c ∈ sparkCandidates (buildTagMap pool history today) seedPrefix := by
          have hcm : c ∈ jsSort candLE
              (sparkCandidates (buildTagMap pool history today) seedPrefix) :=
            List.mem_of_mem_head? (by rw [hhead]; exact Option.mem_some_iff.mpr rfl)
          exact jsSort_mem.mp hcm
        have hcm2 : c ∈ (buildTagMap pool history today).foldl (sparkStep seedPrefix) [] := by
          simpa [sparkCandidates] using hcmem
        rcases sparkFold_mem [] hcm2 with hfalse | ⟨p, hp, hlen2, hh, hl, hne, htagc, htiec⟩
        · cases hfalse
        · have hptag : p.1 ≠ "" := hkeys.2 p hp
          have hpm : p.2 = tagMembers pool history today p.1 := by
            rw [← groupOf_of_mem hkeys.1 hp,
              groupOf_buildTagMap pool history today p.1 hptag htags]
          refine ⟨p.1, hptag, ?_, ?_, ?_, ?_, ?_⟩
          · rw [← hab.1, ← hpm]
            exact jsSort_mem.mp (List.mem_of_mem_head? (by rw [hh]; simp))
          · rw [← hab.2, ← hpm]
            exact jsSort_mem.mp (List.mem_of_mem_getLast? (by rw [hl]; simp))
          · rw [← hab.1, ← hab.2]
            exact hne
          · intro m hm
            have hmS : m ∈ jsSort createTimeLE p.2 := by
              rw [jsSort_mem, hpm]
              exact hm
            have hsorted := sorted_jsSort_createTime p.2
            have hmin := head?_min_of_pairwise hsorted hh m hmS
            have hmax := getLast?_max_of_pairwise hsorted hl m hmS
            constructor
            · rcases hmin with he | hr
              · rw [← hab.1, he]
              · rw [← hab.1]
                simpa [createTimeLE] using hr
            · rcases hmax with he | hr
              · rw [← hab.2, he]
              · rw [← hab.2]
                simpa [createTimeLE] using hr
          · intro tag2 htag2 hlen3
            rcases candidate_of_members seedPrefix hid htags htag2 hlen3 with
              ⟨c2, hc2, hc2tag, hc2tie⟩
            have hc2S : c2 ∈ jsSort candLE
                (sparkCandidates (buildTagMap pool history today) seedPrefix) :=
              jsSort_mem.mpr hc2
            have hsc := sorted_jsSort_cand
              (sparkCandidates (buildTagMap pool history today) seedPrefix)
            rcases head?_min_of_pairwise hsc hhead c2 hc2S with he | hr
            · have heq : stringToSeed (seedPrefix ++ "-tag-" ++ p.1) =
                  stringToSeed (seedPrefix ++ "-tag-" ++ tag2) := by
                rw [← htiec, ← hc2tie, he]
              exact heq.le
            · have hr2 : c.tie ≤ c2.tie := by simpa [candLE] using hr
              rw [htiec] at hr2
              rw [hc2tie] at hr2
              exact hr2


/-- A one-tag memo for the spark witnesses. -/
def tagMemo (id : String) (t : Nat) (tg : String) : Memo :=
  { id := id, name := none, uid := none, createTime := some t, content := "x",
    tags := [tg], attachments := [] }

/-- A pool with two eligible memos sharing one tag. -/
def sparkPool : List Memo := [tagMemo "s1" 1 "alpha", tagMemo "s2" 9 "alpha"]

set_option maxRecDepth 100000 in
/-- Witness for C6 at a concrete two-memo pool sharing a tag. -/
theorem c6_findSparkPair_witness :
    (findSparkPair sparkPool emptyHistory 0 "seed" = none ↔
      ∀ tag, tag ≠ "" → (tagMembers sparkPool emptyHistory 0 tag).length < 2) ∧
    (∀ a b, findSparkPair sparkPool emptyHistory 0 "seed" = some (a, b) →
      ∃ tag, tag ≠ "" ∧
        a ∈ tagMembers sparkPool emptyHistory 0 tag ∧
        b ∈ tagMembers sparkPool emptyHistory 0 tag ∧
        a.id ≠ b.id ∧
        (∀ m ∈ tagMembers sparkPool emptyHistory 0 tag, ctMs a ≤ ctMs m ∧ ctMs m ≤ ctMs b) ∧
        (∀ tag2, tag2 ≠ "" → 2 ≤ (tagMembers sparkPool emptyHistory 0 tag2).length →
          stringToSeed ("seed" ++ "-tag-" ++ tag) ≤ stringToSeed ("seed" ++ "-tag-" ++ tag2))) :=
  c6_findSparkPair_characterization sparkPool emptyHistory 0 "seed" (by decide) (by decide)

end DailyReview
